import Mathlib

/-!
The package `hash` of go-common

A shallow embedding of `src/hash/hash.go` (`Values`, `hashValues`, `Sum64`, `Modulo`)
together with the library routines it calls: the xxhash 64-bit digest, the `fmt` verbs
`%d`, `%f`, `%v`, `%016x`, `strconv.ParseUint`, `math.Mod` and the float/integer conversions
of the Go language.

Conventions.
* A Go `string` or `[]byte` is a list of bytes (`Bytes`).
* Machine integers are `Nat` / `Int` with explicit wrap-around.
* A floating point number is its decoded IEEE-754 value (`Flt`).
-/

namespace Hash

/-! ## Bytes and strings -/

/-- One byte. -/
abbrev Byte := Fin 256

/-- Go `string` / `[]byte`: a finite sequence of bytes. -/
abbrev Bytes := List Byte

/-- The bytes of a text literal made of ASCII characters (code points are taken modulo 256). -/
def lit (s : String) : Bytes :=
  s.toList.map (fun c => Fin.ofNat c.toNat)

/-! ## xxhash (github.com/cespare/xxhash), 64-bit variant, seed 0 -/

def mask64 : Nat := 2 ^ 64

def prime1 : Nat := 11400714785074694791
def prime2 : Nat := 14029467366897019727
def prime3 : Nat := 1609587929392839161
def prime4 : Nat := 9650029242287828579
def prime5 : Nat := 2870177450012600261

/-- Rotate a 64-bit word left by `r` bits (`0 < r < 64`). -/
def rol (x r : Nat) : Nat :=
  ((x <<< r) % mask64) ||| ((x % mask64) >>> (64 - r))

/-- Little-endian value of a byte sequence. -/
def le : Bytes → Nat
  | [] => 0
  | b :: bs => b.val + 256 * le bs

/-- Little-endian 64-bit word at the head of `b`. -/
def u64 (b : Bytes) : Nat := le (b.take 8)

/-- Little-endian 32-bit word at the head of `b`. -/
def u32 (b : Bytes) : Nat := le (b.take 4)

/-- The xxhash `round` step. -/
def round (acc input : Nat) : Nat :=
  (rol ((acc + input * prime2) % mask64) 31 * prime1) % mask64

/-- The xxhash `mergeRound` step. -/
def mergeRound (acc val : Nat) : Nat :=
  (((acc ^^^ round 0 val) * prime1) % mask64 + prime4) % mask64

/-- The four lane accumulators. -/
structure Lanes where
  v1 : Nat
  v2 : Nat
  v3 : Nat
  v4 : Nat
deriving Repr, DecidableEq

/-- Consume all complete 32-byte stripes of `b`; returns the lanes and the unconsumed tail.
`fuel` bounds the number of stripes (`b.length / 32` suffices). -/
def stripes : Nat → Lanes → Bytes → Lanes × Bytes
  | 0, l, b => (l, b)
  | fuel + 1, l, b =>
    if 32 ≤ b.length then
      stripes fuel
        { v1 := round l.v1 (u64 b)
          v2 := round l.v2 (u64 (b.drop 8))
          v3 := round l.v3 (u64 (b.drop 16))
          v4 := round l.v4 (u64 (b.drop 24)) }
        (b.drop 32)
    else (l, b)

/-- Fold the remaining (fewer than 32) bytes into `h`: 8-byte words, then one 4-byte word,
then single bytes. `fuel` bounds the number of steps (`b.length` suffices). -/
def tail : Nat → Nat → Bytes → Nat
  | 0, h, _ => h
  | fuel + 1, h, b =>
    if 8 ≤ b.length then
      tail fuel (((rol (h ^^^ round 0 (u64 b)) 27 * prime1) % mask64 + prime4) % mask64)
        (b.drop 8)
    else if 4 ≤ b.length then
      tail fuel
        (((rol (h ^^^ ((u32 b * prime1) % mask64)) 23 * prime2) % mask64 + prime3) % mask64)
        (b.drop 4)
    else
      match b with
      | [] => h
      | x :: rest =>
        tail fuel ((rol (h ^^^ ((x.val * prime5) % mask64)) 11 * prime1) % mask64) rest

/-- The final avalanche. -/
def avalanche (h : Nat) : Nat :=
  let h1 := ((h ^^^ (h >>> 33)) * prime2) % mask64
  let h2 := ((h1 ^^^ (h1 >>> 29)) * prime3) % mask64
  h2 ^^^ (h2 >>> 32)

/-- The one-shot 64-bit xxhash of `b` with seed 0. -/
def xxh64 (b : Bytes) : Nat :=
  let n := b.length
  let (h, rest) :=
    if 32 ≤ n then
      let (l, rest) := stripes (n / 32)
        { v1 := (prime1 + prime2) % mask64, v2 := prime2, v3 := 0,
          v4 := (mask64 - prime1) % mask64 } b
      let h := (rol l.v1 1 + rol l.v2 7 + rol l.v3 12 + rol l.v4 18) % mask64
      (mergeRound (mergeRound (mergeRound (mergeRound h l.v1) l.v2) l.v3) l.v4, rest)
    else (prime5, b)
  avalanche (tail rest.length ((h + n) % mask64) rest)

/-- The streaming digest `xxhash.New()`. By the `hash.Hash` contract the value of `Sum64`
depends only on the concatenation of everything written so far, so the state is that
concatenation. -/
structure Digest where
  data : Bytes
deriving Repr, DecidableEq

/-- Fresh digest: `xxhash.New()`. -/
def New : Digest := ⟨[]⟩

/-- Append bytes: `h.Write(b)`. -/
def Digest.Write (h : Digest) (b : Bytes) : Digest := ⟨h.data ++ b⟩

/-- Append the bytes of a string: `io.WriteString(h, s)`. -/
def Digest.WriteString (h : Digest) (s : Bytes) : Digest := h.Write s

/-- Current 64-bit hash value: `h.Sum64()`. -/
def Digest.Sum64 (h : Digest) : Nat := xxh64 h.data

/-! ## Integers and `fmt` integer verbs -/

/-- The value of a `w`-bit two's complement integer holding `n` (wrap-around). -/
def wrapInt (w : Nat) (n : Int) : Int :=
  (n + 2 ^ (w - 1)) % 2 ^ w - 2 ^ (w - 1)

/-- The digit table of package `fmt`: `"0123456789abcdefx"`. -/
def ldigits : Bytes := lit "0123456789abcdefx"

/-- The character for digit `d`: `ldigits[d]`. -/
def digit (d : Nat) : Byte := ldigits.getD d 0

/-- The digit loop of `fmt.fmtInteger`: writes the digits of `u` in base `base` in front of
`acc`, least significant digit first. `fuel` bounds the number of digits written after the
first; 64 suffices for any 64-bit `u`. -/
def fmtDigits (base : Nat) : Nat → Nat → Bytes → Bytes
  | 0, u, acc => digit (u % base) :: acc
  | fuel + 1, u, acc =>
    if base ≤ u then fmtDigits base fuel (u / base) (digit (u % base) :: acc)
    else digit u :: acc

/-- Verb `%d` on a signed 64-bit integer: decimal digits, with a leading `-` when negative. -/
def fmtD (n : Int) : Bytes :=
  if n < 0 then (45 : Byte) :: fmtDigits 10 64 (n.natAbs % 2 ^ 64) []
  else fmtDigits 10 64 (n.natAbs % 2 ^ 64) []

/-- Verb `%016x` on a `uint64`: lowercase base 16, padded with `0` on the left to width 16. -/
def fmt016x (u : Nat) : Bytes :=
  let ds := fmtDigits 16 64 (u % 2 ^ 64) []
  List.replicate (16 - ds.length) (48 : Byte) ++ ds

/-- Verb `%v` on a `bool`. -/
def fmtBool (b : Bool) : Bytes :=
  if b then lit "true" else lit "false"

/-! ## Floating point -/

/-- A decoded IEEE-754 binary floating point number: not-a-number, an infinity, or the finite
number `(-1)^neg * m * 2^e`. -/
inductive Flt where
  | nan
  | inf (neg : Bool)
  | fin (neg : Bool) (m : Nat) (e : Int)
deriving Repr, DecidableEq

/-- The numbers a `float64` can hold: 53-bit significand, exponent of the unit in the last
place between `-1074` and `971`. -/
def Flt.isFloat64 : Flt → Prop
  | .fin _ m e => m < 2 ^ 53 ∧ -1074 ≤ e ∧ e ≤ 971
  | _ => True

/-- The numbers a `float32` can hold: 24-bit significand, exponent of the unit in the last
place between `-149` and `104`. -/
def Flt.isFloat32 : Flt → Prop
  | .fin _ m e => m < 2 ^ 24 ∧ -149 ≤ e ∧ e ≤ 104
  | _ => True

instance (f : Flt) : Decidable f.isFloat64 := by
  cases f <;> unfold Flt.isFloat64 <;> infer_instance

instance (f : Flt) : Decidable f.isFloat32 := by
  cases f <;> unfold Flt.isFloat32 <;> infer_instance

/-- The magnitude `m * 2^e` as a fraction `num / 2^k` with a common power-of-two
denominator: returns `(num, k)`. -/
def scaled (m : Nat) (e : Int) : Nat × Nat :=
  if 0 ≤ e then (m * 2 ^ e.toNat, 0) else (m, (-e).toNat)

/-- The Go operator `==` on floating point numbers: NaN equals nothing, the two zeros are
equal, otherwise the values are compared. -/
def Flt.eq : Flt → Flt → Bool
  | .nan, _ => false
  | _, .nan => false
  | .inf a, .inf b => a == b
  | .inf _, .fin _ _ _ => false
  | .fin _ _ _, .inf _ => false
  | .fin s m e, .fin t n f =>
    let (a, j) := scaled m e
    let (b, k) := scaled n f
    (a == 0 && b == 0) || (s == t && a * 2 ^ k == b * 2 ^ j)

/-- Truncation towards zero of a finite number; `none` for NaN and the infinities. -/
def Flt.trunc : Flt → Option Int
  | .fin s m e =>
    let (a, k) := scaled m e
    let q : Int := ((a / 2 ^ k : Nat) : Int)
    some (if s then -q else q)
  | _ => none

/-- The conversion `int64(x)` of a float: the fraction is discarded; when the result does
not fit (or `x` is NaN or infinite) the language leaves the value to the implementation,
and amd64 yields the smallest `int64`. -/
def Flt.toInt64 (x : Flt) : Int :=
  match x.trunc with
  | some v => if -2 ^ 63 ≤ v ∧ v < 2 ^ 63 then v else -2 ^ 63
  | none => -2 ^ 63

/-- The conversion `int32(x)` of a float: as `toInt64` with the 32-bit range. -/
def Flt.toInt32 (x : Flt) : Int :=
  match x.trunc with
  | some v => if -2 ^ 31 ≤ v ∧ v < 2 ^ 31 then v else -2 ^ 31
  | none => -2 ^ 31

/-- Number of binary digits of `u` (`0` for `0`); `fuel` bounds the count. -/
def bitLen : Nat → Nat → Nat
  | 0, _ => 0
  | fuel + 1, u => if u = 0 then 0 else bitLen fuel (u / 2) + 1

/-- Round the natural number `u` to `p` significant bits, to nearest, ties to even:
returns `(m, k)` with the rounded value `m * 2^k`. -/
def roundBits (p u : Nat) : Nat × Nat :=
  let l := bitLen 128 u
  if l ≤ p then (u, 0)
  else
    let k := l - p
    let q := u / 2 ^ k
    let r := u % 2 ^ k
    let half := 2 ^ (k - 1)
    if half < r ∨ (r = half ∧ q % 2 = 1) then
      (if q + 1 = 2 ^ p then (2 ^ (p - 1), k + 1) else (q + 1, k))
    else (q, k)

/-- The conversion of an integer to a float with a `p`-bit significand. -/
def Flt.ofInt (p : Nat) (n : Int) : Flt :=
  let (m, k) := roundBits p n.natAbs
  .fin (decide (n < 0)) m k

/-- The conversion `float64(n)` of an `int64`, `int` or `uint64`. -/
def Flt.float64 (n : Int) : Flt := Flt.ofInt 53 n

/-- The conversion `float32(n)` of an `int32`. -/
def Flt.float32 (n : Int) : Flt := Flt.ofInt 24 n

/-- The decimal digits of `n`, padded with `0` on the left to at least `w` digits. -/
def decimal (w n : Nat) : Bytes :=
  let ds := (Nat.toDigits 10 n).map (fun c => (Fin.ofNat c.toNat : Byte))
  List.replicate (w - ds.length) (48 : Byte) ++ ds

/-- Verb `%f` (precision 6): `NaN`, `+Inf`, `-Inf`, or the sign, the integer part, a point
and six decimals, the exact value being rounded to nearest, ties to even. -/
def fmtF : Flt → Bytes
  | .nan => lit "NaN"
  | .inf false => lit "+Inf"
  | .inf true => lit "-Inf"
  | .fin s m e =>
    let (a, k) := scaled m e
    let num := a * 10 ^ 6
    let q := num / 2 ^ k
    let r := num % 2 ^ k
    let n := if 2 ^ k < 2 * r ∨ (2 * r = 2 ^ k ∧ q % 2 = 1) then q + 1 else q
    (if s then [(45 : Byte)] else []) ++ decimal 1 (n / 10 ^ 6) ++ [(46 : Byte)]
      ++ decimal 6 (n % 10 ^ 6)

/-- The function `math.Mod(x, y)`: the floating point remainder of `x / y`, exact, with the
sign of `x`; NaN when `x` is infinite or NaN, or `y` is zero or NaN; `x` when `y` is
infinite. -/
def Mod : Flt → Flt → Flt
  | .nan, _ => .nan
  | _, .nan => .nan
  | .inf _, _ => .nan
  | .fin s m e, .inf _ => .fin s m e
  | .fin s m e, .fin _ n f =>
    let (a, j) := scaled m e
    let (b, k) := scaled n f
    if b = 0 then .nan else .fin s ((a * 2 ^ k) % (b * 2 ^ j)) (-((j + k : Nat) : Int))

/-! ## The values `hashValues` receives -/

/-- The kinds of package `reflect`. -/
inductive Kind where
  | Invalid | Bool | Int | Int8 | Int16 | Int32 | Int64
  | Uint | Uint8 | Uint16 | Uint32 | Uint64 | Uintptr
  | Float32 | Float64 | Complex64 | Complex128
  | Array | Chan | Func | Interface | Map | Ptr | Slice | String | Struct | UnsafePointer
deriving Repr, DecidableEq

/-- One argument of `Values`: an `interface{}` value. The constructors are the cases of the
type switch in `hashValues`; a pointer is an `Option` (`none` is the nil pointer). A value of
any other dynamic type is `other`, given by its `reflect` kind, the bytes `json.Marshal`
returns for it (empty when marshalling fails) and its `%v` rendering. Integers are reduced
to their width where they are used. -/
inductive Value where
  | nil
  | string (s : Bytes)
  | bytes (s : Bytes)
  | strings (s : List Bytes)
  | bool (s : Bool)
  | int (s : Int)
  | int8 (s : Int)
  | int16 (s : Int)
  | int32 (s : Int)
  | int64 (s : Int)
  | float32 (s : Flt)
  | float64 (s : Flt)
  | pstring (s : Option Bytes)
  | pint (s : Option Int)
  | pint8 (s : Option Int)
  | pint16 (s : Option Int)
  | pint32 (s : Option Int)
  | pint64 (s : Option Int)
  | pfloat32 (s : Option Flt)
  | pfloat64 (s : Option Flt)
  | pbool (s : Option Bool)
  | other (k : Kind) (json : Bytes) (v : Bytes)
deriving Repr, DecidableEq

/-! ## `hashValues` -/

/-- The default branch of the type switch: a pointer is treated as kind `Interface`; kinds
`Struct`, `Slice` and `Interface` absorb the JSON encoding, every other kind the `%v`
rendering. -/
def absorbOther (h : Digest) (k : Kind) (json v : Bytes) : Digest :=
  let k := if k = Kind.Ptr then Kind.Interface else k
  match k with
  | .Struct | .Slice | .Interface => h.Write json
  | _ => h.Write v

/-- The body of the loop of `hashValues`: what one argument `o` adds to the digest `h`. -/
def absorb (h : Digest) (o : Value) : Digest :=
  match o with
  | .nil => h.WriteString (lit "")
  | .string s => h.WriteString s
  | .bytes s => h.Write s
  | .strings s => s.foldl (fun h v => h.WriteString v) h
  | .bool s => if s then h.WriteString (lit "true") else h.WriteString (lit "false")
  | .int s => h.Write (fmtD (wrapInt 64 s))
  | .int8 s => h.Write (fmtD (wrapInt 8 s))
  | .int16 s => h.Write (fmtD (wrapInt 16 s))
  | .int32 s => h.Write (fmtD (wrapInt 32 s))
  | .int64 s => h.Write (fmtD (wrapInt 64 s))
  | .float32 s =>
    if s.eq (Flt.float32 s.toInt32) then h.Write (fmtD s.toInt32) else h.Write (fmtF s)
  | .float64 s =>
    if s.eq (Flt.float64 s.toInt64) then h.Write (fmtD s.toInt64) else h.Write (fmtF s)
  | .pstring none => h.WriteString (lit "")
  | .pstring (some s) => h.WriteString s
  | .pint none => h.WriteString (lit "")
  | .pint (some s) => h.Write (fmtD (wrapInt 64 s))
  | .pint8 none => h.WriteString (lit "")
  | .pint8 (some s) => h.Write (fmtD (wrapInt 8 s))
  | .pint16 none => h.WriteString (lit "")
  | .pint16 (some s) => h.Write (fmtD (wrapInt 16 s))
  | .pint32 none => h.WriteString (lit "")
  | .pint32 (some s) => h.Write (fmtD (wrapInt 32 s))
  | .pint64 none => h.WriteString (lit "")
  | .pint64 (some s) => h.Write (fmtD (wrapInt 64 s))
  | .pfloat32 none => h.WriteString (lit "")
  | .pfloat32 (some s) =>
    if s.eq (Flt.float32 s.toInt32) then h.Write (fmtD s.toInt32) else h.Write (fmtF s)
  | .pfloat64 none => h.WriteString (lit "")
  | .pfloat64 (some s) =>
    if s.eq (Flt.float64 s.toInt64) then h.Write (fmtD s.toInt64) else h.Write (fmtF s)
  | .pbool none => h.WriteString (lit "")
  | .pbool (some s) => h.Write (fmtBool s)
  | .other k json v => absorbOther h k json v

/-- The function `hashValues`: absorb every argument in order into a fresh digest and
render the 64-bit sum with `%016x`. -/
def hashValues (objects : List Value) : Bytes :=
  let h := objects.foldl absorb New
  fmt016x h.Sum64

/-- The function `Values`. -/
def Values (objects : List Value) : Bytes :=
  hashValues objects

/-! ## `Sum64` and `Modulo` -/

/-- The errors of `strconv.ParseUint`. -/
inductive NumError where
  | ErrSyntax
  | ErrRange
deriving Repr, DecidableEq

/-- The function `lower(c)` of `strconv`: `c | ('x' - 'X')`. -/
def lower (c : Byte) : Nat := c.val ||| 32

/-- The digit value of the character `c` in `strconv.ParseUint`, `none` for a character
that is neither a decimal digit nor a letter. -/
def digitVal (c : Byte) : Option Nat :=
  if 48 ≤ c.val ∧ c.val ≤ 57 then some (c.val - 48)
  else if 97 ≤ lower c ∧ lower c ≤ 122 then some (lower c - 97 + 10)
  else none

/-- The loop of `strconv.ParseUint` over the characters of the string, `n` being the value
read so far. -/
def parseLoop (base cutoff maxVal : Nat) : Bytes → Nat → Nat × Option NumError
  | [], n => (n, none)
  | c :: cs, n =>
    match digitVal c with
    | none => (0, some .ErrSyntax)
    | some d =>
      if base ≤ d then (0, some .ErrSyntax)
      else if cutoff ≤ n then (maxVal, some .ErrRange)
      else
        let n0 := (n * base) % 2 ^ 64
        let n1 := (n0 + d) % 2 ^ 64
        if n1 < n0 ∨ maxVal < n1 then (maxVal, some .ErrRange)
        else parseLoop base cutoff maxVal cs n1

/-- The function `strconv.ParseUint(s, base, bitSize)` for an explicit base between 2 and
36 and a bit size between 1 and 64 (the only call in this package passes 16 and 64):
returns the value and the error. -/
def ParseUint (s : Bytes) (base bitSize : Nat) : Nat × Option NumError :=
  if s = [] then (0, some .ErrSyntax)
  else parseLoop base ((2 ^ 64 - 1) / base + 1) (2 ^ bitSize - 1) s 0

/-- The function `Sum64`: the value of `ParseUint`, the error being dropped. -/
def Sum64 (sha : Bytes) : Nat :=
  (ParseUint sha 16 64).1

/-- The function `Modulo`: `int(math.Mod(float64(Sum64(sha)), float64(num)))`. -/
def Modulo (sha : Bytes) (num : Int) : Int :=
  Flt.toInt64 (Mod (Flt.float64 (Sum64 sha)) (Flt.float64 num))

/-! ## Reading aids used in the statements -/

/-- The bytes one argument adds to a fresh digest. -/
def encode (o : Value) : Bytes :=
  (absorb New o).data

/-- The 64-bit sum the digest of `hashValues` holds before it is rendered. -/
def digestOf (objects : List Value) : Nat :=
  (objects.foldl absorb New).Sum64

/-- A lowercase hexadecimal character: `0`-`9` or `a`-`f`. -/
def isLowerHex (c : Byte) : Prop :=
  (48 ≤ c.val ∧ c.val ≤ 57) ∨ (97 ≤ c.val ∧ c.val ≤ 102)

/-- A hexadecimal character of either case: `0`-`9`, `a`-`f` or `A`-`F`. -/
def isHex (c : Byte) : Prop :=
  (48 ≤ c.val ∧ c.val ≤ 57) ∨ (97 ≤ c.val ∧ c.val ≤ 102) ∨ (65 ≤ c.val ∧ c.val ≤ 70)

instance (c : Byte) : Decidable (isLowerHex c) := by
  unfold isLowerHex; infer_instance

instance (c : Byte) : Decidable (isHex c) := by
  unfold isHex; infer_instance

/-- The value of a hexadecimal character (`0` for any other character). -/
def hexDigit (c : Byte) : Nat :=
  if 48 ≤ c.val ∧ c.val ≤ 57 then c.val - 48
  else if 97 ≤ c.val ∧ c.val ≤ 102 then c.val - 87
  else if 65 ≤ c.val ∧ c.val ≤ 70 then c.val - 55
  else 0

/-- The number a text of hexadecimal characters denotes, most significant digit first. -/
def hexValue (s : Bytes) : Nat :=
  s.foldl (fun n c => 16 * n + hexDigit c) 0

/-- The `w` lowest digits of `u` in base `b`, most significant first. -/
def fixedDigits (b : Nat) : Nat → Nat → Bytes
  | 0, _ => []
  | w + 1, u => fixedDigits b w (u / b) ++ [digit (u % b)]

/-- The value `m * 2^k` of a rounded natural number. -/
def rounded (p u : Nat) : Nat :=
  (roundBits p u).1 * 2 ^ (roundBits p u).2

/-- The explicit nil and the nil pointers of the nine scalar pointer types. -/
def nilValues : List Value :=
  [.nil, .pstring none, .pbool none, .pint none, .pint8 none, .pint16 none, .pint32 none,
   .pint64 none, .pfloat32 none, .pfloat64 none]

/-- The natural number `r` is `m * 2^e` with `m` below `2^p`: a float with a `p`-bit
significand holds it exactly. -/
def Rep (p r : Nat) : Prop :=
  ∃ m e : Nat, m < 2 ^ p ∧ r = m * 2 ^ e

/-- The base-10 text of an integer: a leading `-` when negative, then the decimal digits
of the magnitude without leading zeros. -/
def decimalText (n : Int) : Bytes :=
  (if n < 0 then [(45 : Byte)] else []) ++
    (Nat.toDigits 10 n.natAbs).map (fun c => (Fin.ofNat c.toNat : Byte))

/-- A nil pointer whose type is none of the nine pointer cases of the type switch, such as a
nil `*uint` or a nil pointer to a struct: its kind is `Ptr`, `json.Marshal` encodes it as
`null` and `%v` renders it as `<nil>`. -/
def nilOtherPtr : Value :=
  .other .Ptr (lit "null") (lit "<nil>")

end Hash

/-!
The package `datetime` of go-common

A shallow embedding of `src/datetime/time.go` (`TimeToEpoch`, `DateFromEpoch`, `EndofDay`,
`StartofDay`, `DateRange`, `EpochMinuteApart`) together with the routines of package `time`
they call. A `time.Time` is kept as its instant; the calendar fields are read in UTC, the only
location in which the embedded functions read them.
-/

namespace Datetime

/-! ## Machine integers -/

/-- The value an `int64` holds after an operation whose exact result is `n` (wrap-around). -/
def wrap64 (n : Int) : Int :=
  (n + 2 ^ 63) % 2 ^ 64 - 2 ^ 63

/-- The value a `uint64` holds after an operation whose exact result is `n` (wrap-around). -/
def wrapU64 (n : Int) : Nat :=
  (n % 2 ^ 64).toNat

/-! ## Package `time` -/

def secondsPerMinute : Nat := 60
def secondsPerHour : Nat := 60 * secondsPerMinute
def secondsPerDay : Nat := 24 * secondsPerHour
def daysPer400Years : Nat := 365 * 400 + 97
def daysPer100Years : Nat := 365 * 100 + 24
def daysPer4Years : Nat := 365 * 4 + 1

/-- The year of the absolute epoch of package `time`. -/
def absoluteZeroYear : Int := -292277022399

/-- Seconds from January 1 of year 1 to January 1, 1970. -/
def unixToInternal : Int := (1969 * 365 + 1969 / 4 - 1969 / 100 + 1969 / 400) * 86400

def internalToUnix : Int := -unixToInternal

/-- Seconds from year 1 back to the absolute epoch:
`(absoluteZeroYear - 1) * 365.2425 * secondsPerDay`. -/
def absoluteToInternal : Int := (absoluteZeroYear - 1) * 31556952

def internalToAbsolute : Int := -absoluteToInternal

/-- The table `daysBefore`: days in a non-leap year before each month. -/
def daysBefore : List Nat :=
  [0, 31, 31 + 28, 31 + 28 + 31, 31 + 28 + 31 + 30, 31 + 28 + 31 + 30 + 31,
   31 + 28 + 31 + 30 + 31 + 30, 31 + 28 + 31 + 30 + 31 + 30 + 31,
   31 + 28 + 31 + 30 + 31 + 30 + 31 + 31, 31 + 28 + 31 + 30 + 31 + 30 + 31 + 31 + 30,
   31 + 28 + 31 + 30 + 31 + 30 + 31 + 31 + 30 + 31,
   31 + 28 + 31 + 30 + 31 + 30 + 31 + 31 + 30 + 31 + 30,
   31 + 28 + 31 + 30 + 31 + 30 + 31 + 31 + 30 + 31 + 30 + 31]

/-- The function `isLeap`. -/
def isLeap (year : Int) : Bool :=
  year % 4 == 0 && (year % 100 != 0 || year % 400 == 0)

/-- A `time.Time`: the instant, as seconds since January 1, 1970 UTC and nanoseconds within
the second (`0 ≤ nsec < 10^9`). -/
structure Time where
  sec : Int
  nsec : Int
deriving Repr, DecidableEq

/-- The function `unixTime(sec, nsec)`. -/
def unixTime (sec nsec : Int) : Time := ⟨sec, nsec⟩

/-- The function `time.Unix(sec, nsec)`: `nsec` outside `[0, 10^9)` is carried into `sec`
(with the truncating division of Go). -/
def Unix (sec nsec : Int) : Time :=
  if nsec < 0 ∨ 1000000000 ≤ nsec then
    let n := Int.tdiv nsec 1000000000
    let sec := wrap64 (sec + n)
    let nsec := wrap64 (nsec - wrap64 (n * 1000000000))
    if nsec < 0 then unixTime (wrap64 (sec - 1)) (nsec + 1000000000)
    else unixTime sec nsec
  else unixTime sec nsec

/-- The method `t.UTC()`: the same instant with the location set to UTC. -/
def Time.UTC (t : Time) : Time := t

/-- The method `t.IsZero()`: the instant is January 1, year 1, 00:00:00 UTC. -/
def Time.IsZero (t : Time) : Bool :=
  t.sec + unixToInternal == 0 && t.nsec == 0

/-- The method `t.UnixNano()`. -/
def Time.UnixNano (t : Time) : Int :=
  wrap64 (wrap64 (t.sec * 1000000000) + t.nsec)

/-- The method `t.abs()` in UTC: seconds since the absolute epoch, as a `uint64`. -/
def Time.abs (t : Time) : Nat :=
  wrapU64 (t.sec + (unixToInternal + internalToAbsolute))

/-- The first half of `absDate` (all of it when `full` is false): the year and the day of
the year of the absolute time `abs`. -/
def absYearDay (abs : Nat) : Int × Nat :=
  let d := abs / secondsPerDay
  let n := d / daysPer400Years
  let y := 400 * n
  let d := d - daysPer400Years * n
  let n := d / daysPer100Years
  let n := n - n >>> 2
  let y := y + 100 * n
  let d := d - daysPer100Years * n
  let n := d / daysPer4Years
  let y := y + 4 * n
  let d := d - daysPer4Years * n
  let n := d / 365
  let n := n - n >>> 2
  let y := y + n
  let d := d - 365 * n
  (wrap64 ((y : Int) + absoluteZeroYear), d)

/-- The second half of `absDate`: month and day of the month from the day of the year,
`leap` being `isLeap(year)`. -/
def absMonthDay (leap : Bool) (yday : Nat) : Nat × Nat :=
  if leap ∧ yday = 31 + 29 - 1 then (2, 29)
  else
    let day := if leap ∧ yday > 31 + 29 - 1 then yday - 1 else yday
    let month := day / 31
    let stop := daysBefore.getD (month + 1) 0
    if day ≥ stop then (month + 1 + 1, day - stop + 1)
    else (month + 1, day - daysBefore.getD month 0 + 1)

/-- The function `absDate(abs, true)`: year, month, day of the month and day of the year of
the absolute time `abs`. -/
def absDate (abs : Nat) : Int × Nat × Nat × Nat :=
  let (year, yday) := absYearDay abs
  let (month, day) := absMonthDay (isLeap year) yday
  (year, month, day, yday)

/-- The method `t.Year()`. -/
def Time.Year (t : Time) : Int := (absDate t.abs).1

/-- The method `t.Month()`. -/
def Time.Month (t : Time) : Int := ((absDate t.abs).2.1 : Nat)

/-- The method `t.Day()`. -/
def Time.Day (t : Time) : Int := ((absDate t.abs).2.2.1 : Nat)

/-- The function `norm(hi, lo, base)`: bring `lo` into `[0, base)`, carrying into `hi`. -/
def norm (hi lo base : Int) : Int × Int :=
  let (hi, lo) :=
    if lo < 0 then
      let n := Int.tdiv (-lo - 1) base + 1
      (hi - n, lo + n * base)
    else (hi, lo)
  if lo ≥ base then
    let n := Int.tdiv lo base
    (hi + n, lo - n * base)
  else (hi, lo)

/-- The function `daysSinceEpoch(year)`: days from the absolute epoch to January 1 of
`year`. -/
def daysSinceEpoch (year : Int) : Nat :=
  let y := wrapU64 (year - absoluteZeroYear)
  let n := y / 400
  let y := y - 400 * n
  let d := daysPer400Years * n
  let n := y / 100
  let y := y - 100 * n
  let d := d + daysPer100Years * n
  let n := y / 4
  let y := y - 4 * n
  let d := d + daysPer4Years * n
  let n := y
  d + 365 * n

/-- The function `time.Date(year, month, day, hour, min, sec, nsec, time.UTC)`. -/
def Date (year month day hour min sec nsec : Int) : Time :=
  let m := month - 1
  let (year, m) := norm year m 12
  let month := m + 1
  let (sec, nsec) := norm sec nsec 1000000000
  let (min, sec) := norm min sec 60
  let (hour, min) := norm hour min 60
  let (day, hour) := norm day hour 24
  let d : Int := daysSinceEpoch year
  let d := d + daysBefore.getD (month - 1).toNat 0
  let d := if isLeap year ∧ month ≥ 3 then d + 1 else d
  let d := d + (day - 1)
  let abs := wrapU64 (d * secondsPerDay)
  let abs := wrapU64 (abs + (hour * secondsPerHour + min * secondsPerMinute + sec))
  let unix := wrap64 (wrap64 abs + (absoluteToInternal + internalToUnix))
  unixTime unix nsec

/-! ## `src/datetime/time.go` -/

/-- The constant `DaysInMilliseconds`. -/
def DaysInMilliseconds : Int := 86400000

/-- The function `TimeToEpoch`: 0 for the zero time, otherwise
`(tv.UnixNano() + 500000) / 1000000` with the truncating division of Go. -/
def TimeToEpoch (tv : Time) : Int :=
  if tv.IsZero then 0
  else
    let tv := tv.UTC
    Int.tdiv (wrap64 (tv.UnixNano + 500000)) 1000000

/-- The function `DateFromEpoch`: `time.Unix(0, t*1000000)`. -/
def DateFromEpoch (t : Int) : Time :=
  Unix 0 (wrap64 (t * 1000000))

/-- The function `EndofDay`. -/
def EndofDay (tv : Int) : Int :=
  let t := (DateFromEpoch tv).UTC
  TimeToEpoch (Date t.Year t.Month t.Day 23 59 59 9999)

/-- The function `StartofDay`. -/
def StartofDay (tv : Int) : Int :=
  let t := (DateFromEpoch tv).UTC
  TimeToEpoch (Date t.Year t.Month t.Day 0 0 0 0)

/-- The function `DateRange`. -/
def DateRange (ref : Time) (timeunit : Int) : Int × Int :=
  let stop := EndofDay (TimeToEpoch ref)
  let begin := wrap64 (1000 + wrap64 (stop - wrap64 (DaysInMilliseconds * timeunit)))
  let begin := if timeunit = -1 then 0 else begin
  (StartofDay begin, stop)

/-- The function `EpochMinuteApart`. -/
def EpochMinuteApart (epoch1 epoch2 : Int) : Bool :=
  let big := epoch1
  let small := epoch2
  let (big, small) := if small > big then (epoch2, epoch1) else (big, small)
  decide (wrap64 (big - small) ≤ 1000 * 60)

end Datetime

namespace Hash

/-! ## The digest sees only the concatenation of the absorbed bytes -/

theorem write_data (h : Digest) (b : Bytes) : (h.Write b).data = h.data ++ b := rfl

theorem writeString_data (h : Digest) (b : Bytes) : (h.WriteString b).data = h.data ++ b := rfl

theorem lit_empty : lit "" = [] := rfl

theorem foldl_writeString_data (s : List Bytes) (h : Digest) :
    (s.foldl (fun h v => h.WriteString v) h).data = h.data ++ s.flatten := by
  induction s generalizing h with
  | nil => simp
  | cons x xs ih => simp [List.foldl_cons, ih, writeString_data]

theorem absorbOther_data (h : Digest) (k : Kind) (json v : Bytes) :
    (absorbOther h k json v).data = h.data ++ (absorbOther New k json v).data := by
  unfold absorbOther
  cases k <;> simp [write_data, New]

theorem absorb_data (h : Digest) (o : Value) : (absorb h o).data = h.data ++ encode o := by
  unfold encode
  cases o with
  | strings s =>
    simp only [absorb]
    rw [foldl_writeString_data, foldl_writeString_data]
    simp [New]
  | other k j v =>
    simp only [absorb]
    rw [absorbOther_data]
  | pstring s => cases s <;> simp [absorb, write_data, writeString_data, New, lit_empty]
  | pint s => cases s <;> simp [absorb, write_data, writeString_data, New, lit_empty]
  | pint8 s => cases s <;> simp [absorb, write_data, writeString_data, New, lit_empty]
  | pint16 s => cases s <;> simp [absorb, write_data, writeString_data, New, lit_empty]
  | pint32 s => cases s <;> simp [absorb, write_data, writeString_data, New, lit_empty]
  | pint64 s => cases s <;> simp [absorb, write_data, writeString_data, New, lit_empty]
  | pbool s => cases s <;> simp [absorb, write_data, writeString_data, New, lit_empty]
  | pfloat32 s =>
    cases s with
    | none => simp [absorb, writeString_data, New, lit_empty]
    | some x => simp only [absorb]; split <;> simp [write_data, New]
  | pfloat64 s =>
    cases s with
    | none => simp [absorb, writeString_data, New, lit_empty]
    | some x => simp only [absorb]; split <;> simp [write_data, New]
  | float32 x => simp only [absorb]; split <;> simp [write_data, New]
  | float64 x => simp only [absorb]; split <;> simp [write_data, New]
  | bool b => cases b <;> simp [absorb, writeString_data, New]
  | _ => simp [absorb, write_data, writeString_data, New, lit_empty]

theorem foldl_absorb_data (os : List Value) (h : Digest) :
    (os.foldl absorb h).data = h.data ++ (os.map encode).flatten := by
  induction os generalizing h with
  | nil => simp
  | cons o os ih => simp [List.foldl_cons, ih, absorb_data]

theorem values_eq (os : List Value) :
    Values os = fmt016x (xxh64 (os.map encode).flatten) := by
  unfold Values hashValues Digest.Sum64
  simp only [foldl_absorb_data]
  simp [New]

theorem digestOf_eq (os : List Value) : digestOf os = xxh64 (os.map encode).flatten := by
  unfold digestOf Digest.Sum64
  simp only [foldl_absorb_data]
  simp [New]

theorem values_congr (os ps : List Value)
    (h : (os.map encode).flatten = (ps.map encode).flatten) : Values os = Values ps := by
  rw [values_eq, values_eq, h]

theorem encode_string (s : Bytes) : encode (.string s) = s := by
  simp [encode, absorb, writeString_data, New]

/-! ## C1: string arguments are concatenated -/

/-- C1: for every list of strings, `Values` of the strings passed as separate arguments
equals `Values` of the single string that is their concatenation, nothing being absorbed
between two arguments; in particular `Values("ab", "c") = Values("abc")`. -/
theorem values_strings_concat :
    (∀ xs : List Bytes, Values (xs.map Value.string) = Values [Value.string xs.flatten]) ∧
    Values [.string (lit "ab"), .string (lit "c")] = Values [.string (lit "abc")] := by
  have key : ∀ xs : List Bytes, Values (xs.map Value.string) = Values [Value.string xs.flatten] := by
    intro xs
    apply values_congr
    simp only [List.map_map, List.map_cons, List.map_nil, encode_string, List.flatten_cons,
      List.flatten_nil, List.append_nil]
    congr 1
    induction xs with
    | nil => rfl
    | cons x xs ih => simp [encode_string, ih]
  exact ⟨key, key [lit "ab", lit "c"]⟩

/-! ## C2: a whole-number float is absorbed like the integer -/

theorem wrapInt64_of_range (v : Int) (h : -2 ^ 63 ≤ v ∧ v < 2 ^ 63) : wrapInt 64 v = v := by
  unfold wrapInt
  norm_num at h ⊢
  omega

theorem wrapInt32_of_range (v : Int) (h : -2 ^ 31 ≤ v ∧ v < 2 ^ 31) : wrapInt 32 v = v := by
  unfold wrapInt
  norm_num at h ⊢
  omega

theorem toInt64_range (x : Flt) : -2 ^ 63 ≤ x.toInt64 ∧ x.toInt64 < 2 ^ 63 := by
  unfold Flt.toInt64
  split
  · split
    · assumption
    · norm_num
  · norm_num

theorem toInt32_range (x : Flt) : -2 ^ 31 ≤ x.toInt32 ∧ x.toInt32 < 2 ^ 31 := by
  unfold Flt.toInt32
  split
  · split
    · assumption
    · norm_num
  · norm_num

theorem encode_float64_whole (x : Flt) (h : x.eq (Flt.float64 x.toInt64) = true) :
    encode (.float64 x) = fmtD x.toInt64 := by
  simp [encode, absorb, h, write_data, New]

theorem encode_float32_whole (x : Flt) (h : x.eq (Flt.float32 x.toInt32) = true) :
    encode (.float32 x) = fmtD x.toInt32 := by
  simp [encode, absorb, h, write_data, New]

theorem encode_int (v : Int) : encode (.int v) = fmtD (wrapInt 64 v) := by
  simp [encode, absorb, write_data, New]

theorem encode_int64 (v : Int) : encode (.int64 v) = fmtD (wrapInt 64 v) := by
  simp [encode, absorb, write_data, New]

theorem encode_int32 (v : Int) : encode (.int32 v) = fmtD (wrapInt 32 v) := by
  simp [encode, absorb, write_data, New]

/-- C2: a `float64` that equals `float64(int64(x))` has the fingerprint of the integer
`int64(x)`, and a `float32` that equals `float32(int32(x))` has the fingerprint of the
integer `int32(x)`; so `Values(float64(123.0)) = Values(123)`. -/
theorem values_whole_float :
    (∀ x : Flt, x.eq (Flt.float64 x.toInt64) = true →
      Values [.float64 x] = Values [.int64 x.toInt64]) ∧
    (∀ x : Flt, x.eq (Flt.float32 x.toInt32) = true →
      Values [.float32 x] = Values [.int32 x.toInt32]) ∧
    Values [.float64 (.fin false 123 0)] = Values [.int 123] := by
  refine ⟨?_, ?_, ?_⟩
  · intro x h
    apply values_congr
    simp only [List.map_cons, List.map_nil, encode_float64_whole x h, encode_int64,
      wrapInt64_of_range _ (toInt64_range x)]
  · intro x h
    apply values_congr
    simp only [List.map_cons, List.map_nil, encode_float32_whole x h, encode_int32,
      wrapInt32_of_range _ (toInt32_range x)]
  · apply values_congr
    decide

/-- C2 at the `float64` 123.0 (written `246 * 2^-1`) and the `float32` -7.0. -/
theorem values_whole_float_witness :
    ((Flt.fin false 246 (-1)).eq (Flt.float64 (Flt.fin false 246 (-1)).toInt64) = true ∧
      Values [.float64 (.fin false 246 (-1))] = Values [.int64 123]) ∧
    ((Flt.fin true 7 0).eq (Flt.float32 (Flt.fin true 7 0).toInt32) = true ∧
      Values [.float32 (.fin true 7 0)] = Values [.int32 (-7)]) :=
  ⟨⟨by decide, values_whole_float.1 (.fin false 246 (-1)) (by decide)⟩,
   ⟨by decide, values_whole_float.2.1 (.fin true 7 0) (by decide)⟩⟩

/-! ## C3: a present optional is absorbed like the plain scalar -/

/-- C3: for a non-nil pointer to a string, bool, int, int8, int16, int32, int64, float32 or
float64 holding `x`, `Values` of the pointer equals `Values` of `x`. -/
theorem values_pointer_present :
    (∀ x, Values [.pstring (some x)] = Values [.string x]) ∧
    (∀ x, Values [.pbool (some x)] = Values [.bool x]) ∧
    (∀ x, Values [.pint (some x)] = Values [.int x]) ∧
    (∀ x, Values [.pint8 (some x)] = Values [.int8 x]) ∧
    (∀ x, Values [.pint16 (some x)] = Values [.int16 x]) ∧
    (∀ x, Values [.pint32 (some x)] = Values [.int32 x]) ∧
    (∀ x, Values [.pint64 (some x)] = Values [.int64 x]) ∧
    (∀ x, Values [.pfloat32 (some x)] = Values [.float32 x]) ∧
    (∀ x, Values [.pfloat64 (some x)] = Values [.float64 x]) := by
  refine ⟨?_, ?_, ?_, ?_, ?_, ?_, ?_, ?_, ?_⟩
  · intro x; rfl
  · intro x; cases x <;> rfl
  · intro x; rfl
  · intro x; rfl
  · intro x; rfl
  · intro x; rfl
  · intro x; rfl
  · intro x; rfl
  · intro x; rfl

/-! ## C4: nil and nil pointers are absorbed as nothing -/

/-- C4: the explicit nil and a nil pointer of each scalar pointer type add no byte to the
digest, so each has the fingerprint of the empty string, and any two of them have the same
fingerprint. -/
theorem values_nil_empty :
    (∀ o ∈ nilValues, encode o = [] ∧ Values [o] = Values [.string (lit "")]) ∧
    (∀ o ∈ nilValues, ∀ o2 ∈ nilValues, Values [o] = Values [o2]) ∧
    Values [.pstring none] = Values [.string (lit "")] := by
  have key : ∀ o ∈ nilValues, encode o = [] ∧ Values [o] = Values [.string (lit "")] := by
    intro o ho
    simp only [nilValues, List.mem_cons, List.mem_singleton, List.not_mem_nil, or_false] at ho
    rcases ho with h | h | h | h | h | h | h | h | h | h <;> subst h <;> exact ⟨rfl, rfl⟩
  refine ⟨key, ?_, rfl⟩
  intro o ho o2 ho2
  rw [(key o ho).2, (key o2 ho2).2]

/-- C4 at the nil `*int`. -/
theorem values_nil_empty_witness :
    Value.pint none ∈ nilValues ∧
      (encode (.pint none) = [] ∧ Values [.pint none] = Values [.string (lit "")]) :=
  ⟨by decide, values_nil_empty.1 (.pint none) (by decide)⟩

/-! ## C10: swapping two arguments -/

/-- C10 fails as stated: the strings `"ab"` and `"abab"` are absorbed as different byte
sequences, yet `Values("ab", "abab") = Values("abab", "ab")`. -/
theorem values_swap_counterexample :
    Values [.string (lit "ab"), .string (lit "abab")] =
      Values [.string (lit "abab"), .string (lit "ab")] ∧
    encode (.string (lit "ab")) ≠ encode (.string (lit "abab")) := by
  decide

/-- C10, amended: `Values(a, b)` is the fingerprint of the bytes of `a` followed by the
bytes of `b`, so swapping leaves it unchanged whenever the two concatenations coincide, which
includes the case where `a` and `b` are absorbed as the same bytes; for the sample pair
`"x"`, `"y"` the two fingerprints differ. -/
theorem values_swap :
    (∀ a b : Value, Values [a, b] = fmt016x (xxh64 (encode a ++ encode b))) ∧
    (∀ a b : Value, encode a ++ encode b = encode b ++ encode a →
      Values [a, b] = Values [b, a]) ∧
    (∀ a b : Value, encode a = encode b → Values [a, b] = Values [b, a]) ∧
    Values [.string (lit "x"), .string (lit "y")] ≠
      Values [.string (lit "y"), .string (lit "x")] := by
  refine ⟨?_, ?_, ?_, by decide⟩
  · intro a b
    rw [values_eq]
    simp
  · intro a b h
    apply values_congr
    simpa using h
  · intro a b h
    apply values_congr
    simp [h]

/-- C10 (amended) at the integer 7 and the string `"7"`, and at `"ab"` and `"abab"`. -/
theorem values_swap_witness :
    (encode (.int 7) = encode (.string (lit "7")) ∧
      Values [.int 7, .string (lit "7")] = Values [.string (lit "7"), .int 7]) ∧
    (encode (.string (lit "ab")) ++ encode (.string (lit "abab")) =
        encode (.string (lit "abab")) ++ encode (.string (lit "ab")) ∧
      Values [.string (lit "ab"), .string (lit "abab")] =
        Values [.string (lit "abab"), .string (lit "ab")]) :=
  ⟨⟨by decide, values_swap.2.2.1 _ _ (by decide)⟩,
   ⟨by decide, values_swap.2.1 _ _ (by decide)⟩⟩

/-! ## Digits -/

theorem digit_lowerHex (d : Nat) (h : d < 16) : isLowerHex (digit d) := by
  interval_cases d <;> decide

theorem digitVal_digit (d : Nat) (h : d < 16) : digitVal (digit d) = some d := by
  interval_cases d <;> decide

theorem digit_zero : digit 0 = (48 : Byte) := by decide

set_option maxRecDepth 100000 in
theorem digitVal_of_isHex :
    ∀ c : Byte, isHex c → digitVal c = some (hexDigit c) ∧ hexDigit c < 16 := by
  decide

set_option maxRecDepth 100000 in
theorem digitVal_of_not_isHex :
    ∀ c : Byte, ¬ isHex c → digitVal c = none ∨ ∃ d, digitVal c = some d ∧ 16 ≤ d := by
  decide

theorem fixedDigits_length (b w u : Nat) : (fixedDigits b w u).length = w := by
  induction w generalizing u with
  | zero => rfl
  | succ w ih => simp [fixedDigits, ih]

theorem fixedDigits_zero_value (b j : Nat) :
    fixedDigits b j 0 = List.replicate j (digit 0) := by
  induction j with
  | zero => rfl
  | succ j ih =>
    simp only [fixedDigits, Nat.zero_div, Nat.zero_mod, ih]
    rw [← List.replicate_succ']

theorem fixedDigits_pad (b : Nat) (hb : 0 < b) (j k u : Nat) (h : u < b ^ k) :
    fixedDigits b (j + k) u = List.replicate j (digit 0) ++ fixedDigits b k u := by
  induction k generalizing u with
  | zero =>
    have hu : u = 0 := by simpa using h
    subst hu
    simp [fixedDigits, fixedDigits_zero_value b]
  | succ k ih =>
    have h2 : u / b < b ^ k := by
      rw [Nat.div_lt_iff_lt_mul hb]
      simpa [pow_succ] using h
    rw [← Nat.add_assoc]
    simp only [fixedDigits, ih _ h2, List.append_assoc]

theorem fixedDigits_reverse_get (b w u i : Nat) (h : i < w) :
    (fixedDigits b w u).reverse.get? i = some (digit (u / b ^ i % b)) := by
  induction w generalizing u i with
  | zero => omega
  | succ w ih =>
    simp only [fixedDigits, List.reverse_append, List.reverse_cons, List.reverse_nil,
      List.nil_append, List.singleton_append]
    cases i with
    | zero => simp
    | succ i =>
      simp only [List.get?_cons_succ]
      rw [ih (u / b) i (by omega), Nat.div_div_eq_div_mul, pow_succ, Nat.mul_comm]

theorem fixedDigits_lowerHex (w u : Nat) : ∀ c ∈ fixedDigits 16 w u, isLowerHex c := by
  induction w generalizing u with
  | zero => intro c hc; simp [fixedDigits] at hc
  | succ w ih =>
    intro c hc
    simp only [fixedDigits, List.mem_append, List.mem_singleton] at hc
    rcases hc with hc | hc
    · exact ih _ c hc
    · subst hc
      exact digit_lowerHex _ (Nat.mod_lt _ (by norm_num))

theorem fmtDigits_eq (b : Nat) (hb : 2 ≤ b) (fuel u : Nat) (acc : Bytes)
    (h : u < b ^ (fuel + 1)) :
    ∃ k, 1 ≤ k ∧ (k = 1 ∨ b ^ (k - 1) ≤ u) ∧ u < b ^ k ∧
      fmtDigits b fuel u acc = fixedDigits b k u ++ acc := by
  induction fuel generalizing u acc with
  | zero =>
    refine ⟨1, le_refl _, Or.inl rfl, by simpa using h, ?_⟩
    simp [fmtDigits, fixedDigits]
  | succ fuel ih =>
    unfold fmtDigits
    by_cases hu : b ≤ u
    · have h2 : u / b < b ^ (fuel + 1) := by
        rw [Nat.div_lt_iff_lt_mul (by omega)]
        simpa [pow_succ] using h
      obtain ⟨k, hk1, hk2, hk3, hk4⟩ := ih (u / b) (digit (u % b) :: acc) h2
      refine ⟨k + 1, by omega, Or.inr ?_, ?_, ?_⟩
      · rcases hk2 with hk2 | hk2
        · subst hk2; simpa using hu
        · have : b ^ (k - 1) * b ≤ u := (Nat.le_div_iff_mul_le (by omega)).1 hk2
          have e : k + 1 - 1 = (k - 1) + 1 := by omega
          rw [e, pow_succ]
          exact this
      · have := (Nat.div_lt_iff_lt_mul (by omega : 0 < b)).1 hk3
        rw [pow_succ]
        exact this
      · rw [if_pos hu, hk4]
        simp [fixedDigits]
    · refine ⟨1, le_refl _, Or.inl rfl, by simpa using hu, ?_⟩
      rw [if_neg hu]
      have : u % b = u := Nat.mod_eq_of_lt (by omega)
      simp [fixedDigits, this]

theorem fmt016x_eq (u : Nat) : fmt016x u = fixedDigits 16 16 (u % 2 ^ 64) := by
  unfold fmt016x
  have hu : u % 2 ^ 64 < 2 ^ 64 := Nat.mod_lt _ (by norm_num)
  generalize u % 2 ^ 64 = v at hu
  obtain ⟨k, hk1, hk2, hk3, hk4⟩ := fmtDigits_eq 16 (by norm_num) 64 v [] (by
    calc v < 2 ^ 64 := hu
      _ ≤ 16 ^ (64 + 1) := by norm_num)
  have hk : k ≤ 16 := by
    rcases hk2 with hk2 | hk2
    · omega
    · by_contra hc
      have : (16 : Nat) ^ 16 ≤ 16 ^ (k - 1) := Nat.pow_le_pow_right (by norm_num) (by omega)
      have h16 : (16 : Nat) ^ 16 = 2 ^ 64 := by norm_num
      omega
  simp only [hk4, List.append_nil, fixedDigits_length]
  have e : fixedDigits 16 16 v = fixedDigits 16 ((16 - k) + k) v := by
    congr 1
    omega
  rw [e, fixedDigits_pad 16 (by norm_num) (16 - k) k v hk3, digit_zero]

/-! ## `strconv.ParseUint` on hexadecimal text -/

theorem hexFold_ge (p : Bytes) (n : Nat) :
    n ≤ p.foldl (fun n c => 16 * n + hexDigit c) n := by
  induction p generalizing n with
  | nil => simp
  | cons c cs ih =>
    simp only [List.foldl_cons]
    exact le_trans (by omega) (ih _)

theorem parseLoop_step (c : Byte) (cs : Bytes) (n d : Nat) (hd : digitVal c = some d)
    (hd16 : d < 16) (hn : 16 * n + d < 2 ^ 64) :
    parseLoop 16 ((2 ^ 64 - 1) / 16 + 1) (2 ^ 64 - 1) (c :: cs) n =
      parseLoop 16 ((2 ^ 64 - 1) / 16 + 1) (2 ^ 64 - 1) cs (16 * n + d) := by
  have h0 : (n * 16) % 2 ^ 64 = 16 * n := by
    rw [Nat.mod_eq_of_lt (by omega)]; omega
  have h1 : (16 * n + d) % 2 ^ 64 = 16 * n + d := Nat.mod_eq_of_lt hn
  simp only [parseLoop, hd]
  rw [if_neg (by omega), if_neg (by norm_num at hn ⊢; omega)]
  simp only [h0, h1]
  rw [if_neg (by norm_num at hn ⊢; omega)]

theorem parseLoop_hex (p : Bytes) (n : Nat) (hp : ∀ x ∈ p, isHex x)
    (hv : p.foldl (fun n c => 16 * n + hexDigit c) n < 2 ^ 64) :
    parseLoop 16 ((2 ^ 64 - 1) / 16 + 1) (2 ^ 64 - 1) p n =
      (p.foldl (fun n c => 16 * n + hexDigit c) n, none) := by
  induction p generalizing n with
  | nil => simp [parseLoop]
  | cons c cs ih =>
    have hc := digitVal_of_isHex c (hp c (by simp))
    simp only [List.foldl_cons] at hv ⊢
    have hge := hexFold_ge cs (16 * n + hexDigit c)
    rw [parseLoop_step c cs n (hexDigit c) hc.1 hc.2 (by omega)]
    exact ih _ (fun x hx => hp x (by simp [hx])) hv

theorem parseLoop_cons (b k m : Nat) (c : Byte) (cs : Bytes) (n : Nat) :
    parseLoop b k m (c :: cs) n =
      match digitVal c with
      | none => (0, some .ErrSyntax)
      | some d =>
        if b ≤ d then (0, some .ErrSyntax)
        else if k ≤ n then (m, some .ErrRange)
        else
          if (n * b % 2 ^ 64 + d) % 2 ^ 64 < n * b % 2 ^ 64 ∨ m < (n * b % 2 ^ 64 + d) % 2 ^ 64
          then (m, some .ErrRange)
          else parseLoop b k m cs ((n * b % 2 ^ 64 + d) % 2 ^ 64) := by
  rfl

theorem parseLoop_append (xs ys : Bytes) (n r : Nat)
    (h : parseLoop 16 ((2 ^ 64 - 1) / 16 + 1) (2 ^ 64 - 1) xs n = (r, none)) :
    parseLoop 16 ((2 ^ 64 - 1) / 16 + 1) (2 ^ 64 - 1) (xs ++ ys) n =
      parseLoop 16 ((2 ^ 64 - 1) / 16 + 1) (2 ^ 64 - 1) ys r := by
  induction xs generalizing n with
  | nil =>
    simp only [parseLoop, Prod.mk.injEq, and_true] at h
    subst h
    rfl
  | cons c cs ih =>
    simp only [List.cons_append]
    rw [parseLoop_cons] at h ⊢
    cases hd : digitVal c with
    | none => simp [hd] at h
    | some d =>
      simp only [hd] at h ⊢
      split_ifs at h ⊢ with h1 h2 h3
      · simp at h
      · simp at h
      · simp at h
      · exact ih _ h

theorem parseLoop_invalid (c : Byte) (cs : Bytes) (n : Nat) (hc : ¬ isHex c) :
    parseLoop 16 ((2 ^ 64 - 1) / 16 + 1) (2 ^ 64 - 1) (c :: cs) n =
      (0, some NumError.ErrSyntax) := by
  unfold parseLoop
  rcases digitVal_of_not_isHex c hc with h | ⟨d, h, hd⟩
  · simp [h]
  · simp [h, hd]

theorem hexValue_fixedDigits (w u : Nat) :
    hexValue (fixedDigits 16 w u) = u % 16 ^ w := by
  induction w generalizing u with
  | zero => simp [hexValue, fixedDigits, Nat.mod_one]
  | succ w ih =>
    have ih2 := ih (u / 16)
    unfold hexValue at ih2 ⊢
    simp only [fixedDigits, List.foldl_append, List.foldl_cons, List.foldl_nil, ih2]
    have hd : hexDigit (digit (u % 16)) = u % 16 := by
      have h16 : u % 16 < 16 := Nat.mod_lt _ (by norm_num)
      have h1 := digitVal_of_isHex (digit (u % 16))
        (by
          have := digit_lowerHex _ h16
          unfold isLowerHex at this
          unfold isHex
          tauto)
      have h2 := digitVal_digit _ h16
      rw [h1.1] at h2
      exact Option.some.inj h2
    rw [hd, pow_succ, Nat.mul_comm (16 ^ w) 16, Nat.mod_mul]
    omega

theorem isHex_of_isLowerHex (c : Byte) (h : isLowerHex c) : isHex c := by
  unfold isLowerHex at h
  unfold isHex
  tauto

theorem sum64_nonempty (s : Bytes) (h : s ≠ []) :
    Sum64 s = (parseLoop 16 ((2 ^ 64 - 1) / 16 + 1) (2 ^ 64 - 1) s 0).1 := by
  unfold Sum64 ParseUint
  rw [if_neg h]

theorem sum64_fmt016x (d : Nat) : Sum64 (fmt016x d) = d % 2 ^ 64 := by
  have hlt : d % 2 ^ 64 < 2 ^ 64 := Nat.mod_lt _ (by norm_num)
  rw [fmt016x_eq]
  generalize d % 2 ^ 64 = u at hlt ⊢
  have hne : fixedDigits 16 16 u ≠ [] := by
    intro h
    have := fixedDigits_length 16 16 u
    rw [h] at this
    simp at this
  have hval : hexValue (fixedDigits 16 16 u) = u := by
    rw [hexValue_fixedDigits]
    exact Nat.mod_eq_of_lt (lt_of_lt_of_le hlt (by norm_num))
  have hp := parseLoop_hex (fixedDigits 16 16 u) 0
    (fun x hx => isHex_of_isLowerHex x (fixedDigits_lowerHex 16 _ x hx))
    (by unfold hexValue at hval; rw [hval]; exact hlt)
  unfold hexValue at hval
  have h3 : (parseLoop 16 ((2 ^ 64 - 1) / 16 + 1) (2 ^ 64 - 1) (fixedDigits 16 16 u) 0).1 =
      List.foldl (fun n c => 16 * n + hexDigit c) 0 (fixedDigits 16 16 u) := by
    rw [hp]
  exact (sum64_nonempty _ hne).trans (h3.trans hval)

theorem avalanche_lt (h : Nat) : avalanche h < 2 ^ 64 := by
  unfold avalanche
  simp only
  apply Nat.xor_lt_two_pow
  · exact Nat.mod_lt _ (by norm_num [mask64])
  · rw [Nat.shiftRight_eq_div_pow]
    exact lt_of_le_of_lt (Nat.div_le_self _ _) (Nat.mod_lt _ (by norm_num [mask64]))

theorem digestOf_lt (v : List Value) : digestOf v < 2 ^ 64 := by
  rw [digestOf_eq]
  unfold xxh64
  exact avalanche_lt _

theorem values_eq_fixedDigits (v : List Value) :
    Values v = fixedDigits 16 16 (digestOf v) := by
  have : Values v = fmt016x (digestOf v) := rfl
  rw [this, fmt016x_eq, Nat.mod_eq_of_lt (digestOf_lt v)]

/-! ## C5: the fingerprint is 16 lowercase hexadecimal characters -/

/-- C5: for every argument list, `Values` returns exactly 16 characters, each one of `0`-`9`
or `a`-`f`; the character at position `i` from the right is the base-16 digit of weight
`16^i` of the 64-bit digest, so small digests are padded with `0` on the left. -/
theorem values_format (v : List Value) :
    (Values v).length = 16 ∧
    (∀ c ∈ Values v, isLowerHex c) ∧
    (∀ i, i < 16 → (Values v).reverse.get? i = some (digit (digestOf v / 16 ^ i % 16))) := by
  rw [values_eq_fixedDigits]
  exact ⟨fixedDigits_length _ _ _, fixedDigits_lowerHex _ _,
    fun i hi => fixedDigits_reverse_get 16 16 _ i hi⟩

/-- C5 at the empty argument list, whose digest is `ef46db3751d8e999`. -/
theorem values_format_witness :
    (Values []).length = 16 ∧
    ((101 : Byte) ∈ Values [] ∧ isLowerHex (101 : Byte)) ∧
    ((3 : Nat) < 16 ∧ (Values []).reverse.get? 3 = some (digit (digestOf [] / 16 ^ 3 % 16))) :=
  ⟨(values_format []).1, ⟨by decide, (values_format []).2.1 101 (by decide)⟩,
    ⟨by decide, (values_format []).2.2 3 (by decide)⟩⟩

/-! ## C6: `Sum64` reads the digest back -/

/-- C6: for every argument list, `Sum64` of the fingerprint is the 64-bit digest the
accumulator produced; and for every `d` below `2^64`, `Sum64` of the `%016x` rendering of `d`
is `d`. -/
theorem sum64_values :
    (∀ v : List Value, Sum64 (Values v) = digestOf v) ∧
    (∀ d : Nat, d < 2 ^ 64 → Sum64 (fmt016x d) = d) := by
  constructor
  · intro v
    have : Values v = fmt016x (digestOf v) := rfl
    rw [this, sum64_fmt016x, Nat.mod_eq_of_lt (digestOf_lt v)]
  · intro d hd
    rw [sum64_fmt016x, Nat.mod_eq_of_lt hd]

/-- C6 at the digest 255, rendered `00000000000000ff`. -/
theorem sum64_values_witness :
    (255 : Nat) < 2 ^ 64 ∧ Sum64 (fmt016x 255) = 255 :=
  ⟨by norm_num, sum64_values.2 255 (by norm_num)⟩

/-! ## C9: `Sum64` on text that is not hexadecimal -/

/-- C9 fails as stated: the text of seventeen `1` followed by `x` contains a character
that is not hexadecimal, yet `Sum64` returns `2^64 - 1`, because the overflow is met before
the `x` is read. -/
theorem sum64_invalid_counterexample :
    (120 : Byte) ∈ lit "11111111111111111x" ∧ ¬ isHex (120 : Byte) ∧
    Sum64 (lit "11111111111111111x") = 2 ^ 64 - 1 ∧
    Sum64 (lit "11111111111111111x") ≠ 0 := by
  decide

/-- C9, amended: `Sum64` returns 0 for the empty text, and for every text whose first
character outside `0`-`9`, `a`-`f`, `A`-`F` follows hexadecimal digits that denote a number
below `2^64`; the error of the parse is dropped in both cases (it is `ErrSyntax`). -/
theorem sum64_invalid :
    (Sum64 [] = 0 ∧ (ParseUint [] 16 64).2 = some NumError.ErrSyntax) ∧
    (∀ (p : Bytes) (c : Byte) (rest : Bytes), (∀ x ∈ p, isHex x) → ¬ isHex c →
      hexValue p < 2 ^ 64 →
      Sum64 (p ++ c :: rest) = 0 ∧
        (ParseUint (p ++ c :: rest) 16 64).2 = some NumError.ErrSyntax) := by
  refine ⟨⟨rfl, rfl⟩, ?_⟩
  intro p c rest hp hc hv
  have h1 := parseLoop_hex p 0 hp hv
  have h2 := parseLoop_append p (c :: rest) 0 _ h1
  have h3 := parseLoop_invalid c rest (hexValue p) hc
  have hne : p ++ c :: rest ≠ [] := by simp
  unfold Sum64 ParseUint
  rw [if_neg hne, h2]
  unfold hexValue at h3
  rw [h3]
  exact ⟨rfl, rfl⟩

set_option maxRecDepth 100000 in
/-- C9 (amended) at `0x1f`, `-1`, `1_0` and `12 34`. -/
theorem sum64_invalid_witness :
    ((∀ x ∈ lit "0", isHex x) ∧ ¬ isHex (120 : Byte) ∧ hexValue (lit "0") < 2 ^ 64 ∧
      Sum64 (lit "0x1f") = 0) ∧
    ((∀ x ∈ lit "", isHex x) ∧ ¬ isHex (45 : Byte) ∧ hexValue (lit "") < 2 ^ 64 ∧
      Sum64 (lit "-1") = 0) ∧
    ((∀ x ∈ lit "1", isHex x) ∧ ¬ isHex (95 : Byte) ∧ hexValue (lit "1") < 2 ^ 64 ∧
      Sum64 (lit "1_0") = 0) ∧
    ((∀ x ∈ lit "12", isHex x) ∧ ¬ isHex (32 : Byte) ∧ hexValue (lit "12") < 2 ^ 64 ∧
      Sum64 (lit "12 34") = 0) :=
  ⟨⟨by decide, by decide, by decide,
      (sum64_invalid.2 (lit "0") 120 (lit "1f") (by decide) (by decide) (by decide)).1⟩,
   ⟨by decide, by decide, by decide,
      (sum64_invalid.2 (lit "") 45 (lit "1") (by decide) (by decide) (by decide)).1⟩,
   ⟨by decide, by decide, by decide,
      (sum64_invalid.2 (lit "1") 95 (lit "0") (by decide) (by decide) (by decide)).1⟩,
   ⟨by decide, by decide, by decide,
      (sum64_invalid.2 (lit "12") 32 (lit "34") (by decide) (by decide) (by decide)).1⟩⟩

/-! ## Rounding an integer to a float -/

theorem bitLen_zero (fuel : Nat) : bitLen fuel 0 = 0 := by
  cases fuel <;> simp [bitLen]

theorem bitLen_spec (fuel u : Nat) (h : u < 2 ^ fuel) :
    u < 2 ^ bitLen fuel u ∧ (0 < u → 2 ^ (bitLen fuel u - 1) ≤ u) := by
  induction fuel generalizing u with
  | zero =>
    have : u = 0 := by simpa using h
    subst this
    simp [bitLen]
  | succ fuel ih =>
    unfold bitLen
    by_cases hu : u = 0
    · subst hu; simp
    · rw [if_neg hu]
      have h2 : u / 2 < 2 ^ fuel := by
        rw [Nat.div_lt_iff_lt_mul (by norm_num)]
        simpa [pow_succ] using h
      obtain ⟨ih1, ih2⟩ := ih (u / 2) h2
      constructor
      · rw [pow_succ]
        omega
      · intro _
        simp only [Nat.add_sub_cancel]
        by_cases hz : u / 2 = 0
        · rw [hz, bitLen_zero]
          simp
          omega
        · have hpos : 0 < u / 2 := Nat.pos_of_ne_zero hz
          have h3 := ih2 hpos
          have hL : 1 ≤ bitLen fuel (u / 2) := by
            by_contra hc
            have : bitLen fuel (u / 2) = 0 := by omega
            rw [this] at ih1
            simp at ih1
            omega
          have e : bitLen fuel (u / 2) = (bitLen fuel (u / 2) - 1) + 1 := by omega
          rw [e, pow_succ]
          omega

theorem rounded_cases (p u : Nat) (hp : 1 ≤ p) (hu : u < 2 ^ 128) :
    (rounded p u = u ∧ u < 2 ^ p) ∨
    (∃ k q, 1 ≤ k ∧ 2 ^ (p - 1) ≤ q ∧ q < 2 ^ p ∧ q * 2 ^ k ≤ u ∧
      (rounded p u = q * 2 ^ k ∨ (rounded p u = (q + 1) * 2 ^ k ∧ q * 2 ^ k < u))) := by
  obtain ⟨hl1, hl2⟩ := bitLen_spec 128 u hu
  by_cases hl : bitLen 128 u ≤ p
  · left
    constructor
    · simp [rounded, roundBits, hl]
    · exact lt_of_lt_of_le hl1 (Nat.pow_le_pow_right (by norm_num) hl)
  · right
    have hupos : 0 < u := by
      rcases Nat.eq_zero_or_pos u with h | h
      · subst h; rw [bitLen_zero] at hl; omega
      · exact h
    have hl3 := hl2 hupos
    generalize hL : bitLen 128 u = l at *
    have hk : 1 ≤ l - p := by omega
    have hpow : (0 : Nat) < 2 ^ (l - p) := Nat.pow_pos (by norm_num)
    have hq1 : 2 ^ (p - 1) ≤ u / 2 ^ (l - p) := by
      rw [Nat.le_div_iff_mul_le hpow, ← pow_add]
      have e : p - 1 + (l - p) = l - 1 := by omega
      rw [e]
      exact hl3
    have hq2 : u / 2 ^ (l - p) < 2 ^ p := by
      rw [Nat.div_lt_iff_lt_mul hpow, ← pow_add]
      have e : p + (l - p) = l := by omega
      rw [e]
      exact hl1
    have hdm := Nat.div_add_mod u (2 ^ (l - p))
    have hle : u / 2 ^ (l - p) * 2 ^ (l - p) ≤ u := Nat.div_mul_le_self _ _
    have hhalf : (0 : Nat) < 2 ^ (l - p - 1) := Nat.pow_pos (by norm_num)
    refine ⟨l - p, u / 2 ^ (l - p), hk, hq1, hq2, hle, ?_⟩
    unfold rounded roundBits
    simp only [hL, if_neg hl]
    split_ifs with hc he
    · right
      constructor
      · simp only
        rw [he, pow_succ]
        have e : 2 ^ p = 2 ^ (p - 1) * 2 := by
          rw [← pow_succ]
          congr 1
          omega
        rw [e]
        ring
      · have hr : 0 < u % 2 ^ (l - p) := by
          rcases hc with hc | hc
          · omega
          · omega
        have := Nat.div_add_mod u (2 ^ (l - p))
        rw [Nat.mul_comm] at this
        omega
    · right
      constructor
      · rfl
      · have hr : 0 < u % 2 ^ (l - p) := by
          rcases hc with hc | hc
          · omega
          · omega
        have := Nat.div_add_mod u (2 ^ (l - p))
        rw [Nat.mul_comm] at this
        omega
    · left
      rfl

theorem rounded_rep (p u : Nat) (hp : 1 ≤ p) (hu : u < 2 ^ 128) : Rep p (rounded p u) := by
  rcases rounded_cases p u hp hu with ⟨h1, h2⟩ | ⟨k, q, hk, hq1, hq2, _, h | ⟨h, _⟩⟩
  · exact ⟨u, 0, h2, by simp [h1]⟩
  · exact ⟨q, k, hq2, h⟩
  · by_cases he : q + 1 = 2 ^ p
    · refine ⟨2 ^ (p - 1), k + 1, Nat.pow_lt_pow_right (by norm_num) (by omega), ?_⟩
      rw [h, he, pow_succ]
      have e : 2 ^ p = 2 ^ (p - 1) * 2 := by
        rw [← pow_succ]
        congr 1
        omega
      rw [e]
      ring
    · exact ⟨q + 1, k, by omega, h⟩

theorem rounded_pos (p u : Nat) (hp : 1 ≤ p) (hu : u < 2 ^ 128) (h0 : 0 < u) :
    0 < rounded p u := by
  have h2 : (0 : Nat) < 2 ^ (p - 1) := Nat.pow_pos (by norm_num)
  rcases rounded_cases p u hp hu with ⟨h1, _⟩ | ⟨k, q, hk, hq1, hq2, _, h | ⟨h, _⟩⟩
  · omega
  · rw [h]
    exact Nat.mul_pos (by omega) (Nat.pow_pos (by norm_num))
  · rw [h]
    exact Nat.mul_pos (by omega) (Nat.pow_pos (by norm_num))

/-- Rounding to nearest never passes a number the float type holds exactly: every exactly
held `r` at or above `u` is at or above the rounding of `u`. -/
theorem rounded_le_rep (p u r : Nat) (hp : 1 ≤ p) (hu : u < 2 ^ 128) (hr : Rep p r)
    (hur : u ≤ r) : rounded p u ≤ r := by
  rcases rounded_cases p u hp hu with ⟨h1, _⟩ | ⟨k, q, hk, hq1, hq2, hle, h | ⟨h, hlt⟩⟩
  · omega
  · omega
  · obtain ⟨m, e, hm, hre⟩ := hr
    rw [h]
    -- `r` exceeds `q * 2^k`, so its exponent is at least `k` and it is a multiple of `2^k`
    have h1 : 2 ^ (p - 1) * 2 ^ k < m * 2 ^ e := by
      calc 2 ^ (p - 1) * 2 ^ k ≤ q * 2 ^ k := Nat.mul_le_mul_right _ hq1
        _ < u := hlt
        _ ≤ r := hur
        _ = m * 2 ^ e := hre
    have hke : k ≤ e := by
      by_contra hc
      have hek : e + 1 ≤ k := by omega
      have h2 : m * 2 ^ e < 2 ^ p * 2 ^ e :=
        Nat.mul_lt_mul_of_pos_right hm (Nat.pow_pos (by norm_num))
      have h3 : 2 ^ p * 2 ^ e = 2 ^ (p - 1) * 2 ^ (e + 1) := by
        rw [← pow_add, ← pow_add]
        congr 1
        omega
      have h4 : 2 ^ (p - 1) * 2 ^ (e + 1) ≤ 2 ^ (p - 1) * 2 ^ k :=
        Nat.mul_le_mul_left _ (Nat.pow_le_pow_right (by norm_num) hek)
      omega
    have h5 : r = (m * 2 ^ (e - k)) * 2 ^ k := by
      rw [hre, Nat.mul_assoc, ← pow_add]
      congr 2
      omega
    have h6 : q * 2 ^ k < (m * 2 ^ (e - k)) * 2 ^ k := by
      rw [← h5]
      exact lt_of_lt_of_le hlt hur
    have h7 : q < m * 2 ^ (e - k) := Nat.lt_of_mul_lt_mul_right h6
    rw [h5]
    exact Nat.mul_le_mul_right _ h7

theorem rep_mod (p x y : Nat) (hx : Rep p x) (hy : Rep p y) (hy0 : 0 < y) :
    Rep p (x % y) := by
  obtain ⟨mx, ex, hmx, rfl⟩ := hx
  obtain ⟨my, ey, hmy, rfl⟩ := hy
  have hmy0 : 0 < my := by
    rcases Nat.eq_zero_or_pos my with h | h
    · subst h; simp at hy0
    · exact h
  by_cases h : ey ≤ ex
  · refine ⟨(mx * 2 ^ (ex - ey)) % my, ey, lt_trans (Nat.mod_lt _ hmy0) hmy, ?_⟩
    have e : mx * 2 ^ ex = (mx * 2 ^ (ex - ey)) * 2 ^ ey := by
      rw [Nat.mul_assoc, ← pow_add]
      congr 2
      omega
    rw [e, Nat.mul_mod_mul_right]
  · refine ⟨mx % (my * 2 ^ (ey - ex)), ex, lt_of_le_of_lt (Nat.mod_le _ _) hmx, ?_⟩
    have e : my * 2 ^ ey = (my * 2 ^ (ey - ex)) * 2 ^ ex := by
      rw [Nat.mul_assoc, ← pow_add]
      congr 2
      omega
    rw [e, Nat.mul_mod_mul_right]

/-! ## `Sum64` and `Modulo` as numbers -/

theorem parseLoop_le (s : Bytes) (n : Nat) (hn : n ≤ 2 ^ 64 - 1) :
    (parseLoop 16 ((2 ^ 64 - 1) / 16 + 1) (2 ^ 64 - 1) s n).1 ≤ 2 ^ 64 - 1 := by
  induction s generalizing n with
  | nil => simpa [parseLoop] using hn
  | cons c cs ih =>
    rw [parseLoop_cons]
    cases hd : digitVal c with
    | none => simp
    | some d =>
      simp only
      split_ifs with h1 h2 h3
      · simp
      · simp
      · simp
      · exact ih _ (by
          have : (n * 16 % 2 ^ 64 + d) % 2 ^ 64 < 2 ^ 64 := Nat.mod_lt _ (by norm_num)
          omega)

theorem sum64_lt (s : Bytes) : Sum64 s < 2 ^ 64 := by
  unfold Sum64 ParseUint
  split_ifs with h
  · norm_num
  · have := parseLoop_le s 0 (by norm_num)
    omega

theorem float64_of_nonneg (n : Int) (h : 0 ≤ n) :
    Flt.float64 n = .fin false (roundBits 53 n.natAbs).1 ((roundBits 53 n.natAbs).2 : Int) := by
  unfold Flt.float64 Flt.ofInt
  simp only [Flt.fin.injEq, decide_eq_false_iff_not, not_lt, and_self, and_true]
  exact h

theorem scaled_natCast (m k : Nat) : scaled m (k : Int) = (m * 2 ^ k, 0) := by
  unfold scaled
  simp

theorem mod_fin_natCast (m j n k : Nat) (h : n * 2 ^ k ≠ 0) :
    Mod (.fin false m (j : Int)) (.fin false n (k : Int)) =
      .fin false ((m * 2 ^ j) % (n * 2 ^ k)) 0 := by
  unfold Mod
  simp only [scaled_natCast]
  rw [if_neg h]
  simp

theorem toInt64_fin_zero (r : Nat) (h : (r : Int) < 2 ^ 63) :
    Flt.toInt64 (.fin false r 0) = (r : Int) := by
  unfold Flt.toInt64 Flt.trunc scaled
  simp only [le_refl, ↓reduceIte, Int.toNat_zero, pow_zero, mul_one, Nat.div_one,
    Bool.false_eq_true]
  rw [if_pos]
  constructor
  · have : (0 : Int) ≤ (r : Int) := Int.ofNat_nonneg r
    have h2 : (-2 : Int) ^ 63 ≤ 0 := by norm_num
    omega
  · exact h

theorem modulo_eq (f : Bytes) (n : Int) (hn : 0 ≤ n) (hy : rounded 53 n.natAbs ≠ 0)
    (hr : ((rounded 53 (Sum64 f) % rounded 53 n.natAbs : Nat) : Int) < 2 ^ 63) :
    Modulo f n = ((rounded 53 (Sum64 f) % rounded 53 n.natAbs : Nat) : Int) := by
  unfold Modulo
  rw [float64_of_nonneg _ (Int.ofNat_nonneg (Sum64 f)), float64_of_nonneg n hn, Int.natAbs_ofNat,
    mod_fin_natCast _ _ _ _ hy]
  exact toInt64_fin_zero _ hr

theorem modulo_lt_natAbs (f : Bytes) (n : Int) (hn : 0 < n) (hn2 : n < 2 ^ 63) :
    rounded 53 n.natAbs ≠ 0 ∧ rounded 53 (Sum64 f) % rounded 53 n.natAbs < n.natAbs := by
  have hu : Sum64 f < 2 ^ 128 := lt_trans (sum64_lt f) (by norm_num)
  have hnat : n.natAbs < 2 ^ 128 := by
    have : (n.natAbs : Int) = n := Int.natAbs_of_nonneg (le_of_lt hn)
    have h3 : (n.natAbs : Int) < 2 ^ 63 := by rw [this]; exact hn2
    have h4 : n.natAbs < 2 ^ 63 := by exact_mod_cast h3
    exact lt_trans h4 (by norm_num)
  have hnpos : 0 < n.natAbs := Int.natAbs_pos.2 (ne_of_gt hn)
  have hy := rounded_pos 53 n.natAbs (by norm_num) hnat hnpos
  refine ⟨by omega, ?_⟩
  have hrep := rep_mod 53 _ _ (rounded_rep 53 (Sum64 f) (by norm_num) hu)
    (rounded_rep 53 n.natAbs (by norm_num) hnat) hy
  by_contra hc
  have h1 := rounded_le_rep 53 n.natAbs _ (by norm_num) hnat hrep (not_lt.1 hc)
  have h2 := Nat.mod_lt (rounded 53 (Sum64 f)) hy
  omega

/-! ## C7: `Modulo` against the exact remainder -/

/-- C7 at `f = "ffffffffffffffff"`, `n = 10`: `Sum64(f)` is `2^64 - 1`, whose remainder
modulo 10 is 5, but `Modulo(f, 10)` is 6, the remainder of `2^64`, the `float64` nearest to
`2^64 - 1`. The same happens just above `2^53`. -/
theorem modulo_not_exact :
    Sum64 (lit "ffffffffffffffff") = 2 ^ 64 - 1 ∧
    Sum64 (lit "ffffffffffffffff") % 10 = 5 ∧
    Modulo (lit "ffffffffffffffff") 10 = 6 ∧
    Sum64 (lit "0020000000000001") % 10 = 3 ∧
    Modulo (lit "0020000000000001") 10 = 2 := by
  decide

/-! ## C8: `Modulo` stays within the bucket count -/

/-- C8: for every text `f` (valid fingerprint or not) and every bucket count `n` with
`0 < n` that fits the type `int`, `0 ≤ Modulo(f, n) < n`. -/
theorem modulo_bound (f : Bytes) (n : Int) (hn : 0 < n) (hn2 : n < 2 ^ 63) :
    0 ≤ Modulo f n ∧ Modulo f n < n := by
  obtain ⟨hy, hlt⟩ := modulo_lt_natAbs f n hn hn2
  have habs : (n.natAbs : Int) = n := Int.natAbs_of_nonneg (le_of_lt hn)
  have hr : ((rounded 53 (Sum64 f) % rounded 53 n.natAbs : Nat) : Int) < n := by
    rw [← habs]
    exact_mod_cast hlt
  rw [modulo_eq f n (le_of_lt hn) hy (lt_trans hr hn2)]
  exact ⟨Int.ofNat_nonneg _, hr⟩

/-- C8 at `f = "ffffffffffffffff"` with `n = 10`, and with `n = 2^53 + 3`, a bucket count
that `float64` does not hold exactly. -/
theorem modulo_bound_witness :
    ((0 : Int) < 10 ∧ (10 : Int) < 2 ^ 63 ∧
      0 ≤ Modulo (lit "ffffffffffffffff") 10 ∧ Modulo (lit "ffffffffffffffff") 10 < 10) ∧
    ((0 : Int) < 9007199254740995 ∧ (9007199254740995 : Int) < 2 ^ 63 ∧
      0 ≤ Modulo (lit "ffffffffffffffff") 9007199254740995 ∧
      Modulo (lit "ffffffffffffffff") 9007199254740995 < 9007199254740995) :=
  ⟨⟨by decide, by decide, modulo_bound (lit "ffffffffffffffff") 10 (by decide) (by decide)⟩,
   ⟨by decide, by decide,
    modulo_bound (lit "ffffffffffffffff") 9007199254740995 (by decide) (by decide)⟩⟩

/-! ## Decimal text -/

theorem toByte_digitChar (d : Nat) (h : d < 10) :
    (Fin.ofNat (Nat.digitChar d).toNat : Byte) = digit d := by
  interval_cases d <;> decide

theorem toDigitsCore_eq_fmtDigits (u : Nat) :
    ∀ (f1 f2 : Nat) (ds : List Char), u < 10 ^ (f1 + 1) → u < f2 →
      (Nat.toDigitsCore 10 f2 u ds).map (fun c => (Fin.ofNat c.toNat : Byte)) =
        fmtDigits 10 f1 u (ds.map (fun c => (Fin.ofNat c.toNat : Byte))) := by
  induction u using Nat.strong_induction_on with
  | _ u ih =>
    intro f1 f2 ds h1 h2
    cases f2 with
    | zero => omega
    | succ f2 =>
      have hd := toByte_digitChar (u % 10) (Nat.mod_lt _ (by norm_num))
      cases f1 with
      | zero =>
        have hu : u < 10 := by simpa using h1
        have h0 : u / 10 = 0 := Nat.div_eq_of_lt hu
        simp only [Nat.toDigitsCore, h0, ↓reduceIte, fmtDigits, List.map_cons, hd]
      | succ f1 =>
        by_cases hu : 10 ≤ u
        · have h0 : u / 10 ≠ 0 := by omega
          have h3 : u / 10 < 10 ^ (f1 + 1) := by
            rw [Nat.div_lt_iff_lt_mul (by norm_num)]
            simpa [pow_succ] using h1
          simp only [Nat.toDigitsCore, h0, ↓reduceIte, fmtDigits, hu]
          rw [ih (u / 10) (by omega) f1 f2 _ h3 (by omega)]
          simp only [List.map_cons, hd]
        · have h0 : u / 10 = 0 := Nat.div_eq_of_lt (by omega)
          have hm : u % 10 = u := Nat.mod_eq_of_lt (by omega)
          rw [hm] at hd
          simp only [Nat.toDigitsCore, h0, ↓reduceIte, fmtDigits, hu, List.map_cons, hd, hm]

theorem lt_ten_pow_succ (u : Nat) : u < 10 ^ (u + 1) :=
  lt_trans (Nat.lt_succ_self u) (Nat.lt_pow_self (by norm_num) _)

theorem toDigits_eq_fmtDigits (fuel u : Nat) (h : u < 10 ^ (fuel + 1)) :
    (Nat.toDigits 10 u).map (fun c => (Fin.ofNat c.toNat : Byte)) = fmtDigits 10 fuel u [] := by
  unfold Nat.toDigits
  rw [toDigitsCore_eq_fmtDigits u fuel (u + 1) [] h (Nat.lt_succ_self u)]
  rfl

theorem fmtD_eq_decimalText (n : Int) (h : -2 ^ 63 ≤ n ∧ n < 2 ^ 63) :
    fmtD n = decimalText n := by
  have hlt : n.natAbs < 2 ^ 64 := by omega
  have hm : n.natAbs % 2 ^ 64 = n.natAbs := Nat.mod_eq_of_lt hlt
  have h10 : n.natAbs < 10 ^ (64 + 1) := lt_trans hlt (by norm_num)
  unfold fmtD decimalText
  rw [hm, toDigits_eq_fmtDigits 64 n.natAbs h10]
  split_ifs <;> rfl

theorem decimalText_digits (n : Int) :
    ∃ k, 1 ≤ k ∧ (k = 1 ∨ 10 ^ (k - 1) ≤ n.natAbs) ∧ n.natAbs < 10 ^ k ∧
      decimalText n = (if n < 0 then [(45 : Byte)] else []) ++ fixedDigits 10 k n.natAbs := by
  obtain ⟨k, hk1, hk2, hk3, hk4⟩ :=
    fmtDigits_eq 10 (by norm_num) n.natAbs n.natAbs [] (lt_ten_pow_succ _)
  refine ⟨k, hk1, hk2, hk3, ?_⟩
  unfold decimalText
  rw [toDigits_eq_fmtDigits n.natAbs n.natAbs (lt_ten_pow_succ _), hk4, List.append_nil]

theorem wrapInt8_of_range (v : Int) (h : -2 ^ 7 ≤ v ∧ v < 2 ^ 7) : wrapInt 8 v = v := by
  unfold wrapInt
  norm_num at h ⊢
  omega

theorem wrapInt16_of_range (v : Int) (h : -2 ^ 15 ≤ v ∧ v < 2 ^ 15) : wrapInt 16 v = v := by
  unfold wrapInt
  norm_num at h ⊢
  omega

theorem encode_int8 (v : Int) : encode (.int8 v) = fmtD (wrapInt 8 v) := by
  simp [encode, absorb, write_data, New]

theorem encode_int16 (v : Int) : encode (.int16 v) = fmtD (wrapInt 16 v) := by
  simp [encode, absorb, write_data, New]

theorem values_single_congr (a b : Value) (h : encode a = encode b) :
    Values [a] = Values [b] := by
  apply values_congr
  simp [h]

theorem encode_int_decimal (n : Int) (h : -2 ^ 63 ≤ n ∧ n < 2 ^ 63) :
    encode (.int n) = decimalText n := by
  rw [encode_int, wrapInt64_of_range n h, fmtD_eq_decimalText n h]

theorem encode_int64_decimal (n : Int) (h : -2 ^ 63 ≤ n ∧ n < 2 ^ 63) :
    encode (.int64 n) = decimalText n := by
  rw [encode_int64, wrapInt64_of_range n h, fmtD_eq_decimalText n h]

theorem encode_int32_decimal (n : Int) (h : -2 ^ 31 ≤ n ∧ n < 2 ^ 31) :
    encode (.int32 n) = decimalText n := by
  rw [encode_int32, wrapInt32_of_range n h, fmtD_eq_decimalText n (by omega)]

theorem encode_int16_decimal (n : Int) (h : -2 ^ 15 ≤ n ∧ n < 2 ^ 15) :
    encode (.int16 n) = decimalText n := by
  rw [encode_int16, wrapInt16_of_range n h, fmtD_eq_decimalText n (by omega)]

theorem encode_int8_decimal (n : Int) (h : -2 ^ 7 ≤ n ∧ n < 2 ^ 7) :
    encode (.int8 n) = decimalText n := by
  rw [encode_int8, wrapInt8_of_range n h, fmtD_eq_decimalText n (by omega)]

/-! ## C11: a signed integer is absorbed as its decimal text -/

/-- C11: for every integer `n` of type int, int8, int16, int32 or int64 (`n` within the
range of the type), `Values(n)` equals `Values` of the base-10 text of `n`; that text is a
`-` for a negative `n` followed by the digits of the magnitude, as many as the magnitude
needs and no more; `Values(-42) = Values("-42")`; a value that fits `int8` has the same
fingerprint at every width. -/
theorem values_integer_decimal :
    (∀ n : Int, -2 ^ 63 ≤ n → n < 2 ^ 63 → Values [.int n] = Values [.string (decimalText n)]) ∧
    (∀ n : Int, -2 ^ 7 ≤ n → n < 2 ^ 7 → Values [.int8 n] = Values [.string (decimalText n)]) ∧
    (∀ n : Int, -2 ^ 15 ≤ n → n < 2 ^ 15 →
      Values [.int16 n] = Values [.string (decimalText n)]) ∧
    (∀ n : Int, -2 ^ 31 ≤ n → n < 2 ^ 31 →
      Values [.int32 n] = Values [.string (decimalText n)]) ∧
    (∀ n : Int, -2 ^ 63 ≤ n → n < 2 ^ 63 →
      Values [.int64 n] = Values [.string (decimalText n)]) ∧
    (∀ n : Int, ∃ k, 1 ≤ k ∧ (k = 1 ∨ 10 ^ (k - 1) ≤ n.natAbs) ∧ n.natAbs < 10 ^ k ∧
      decimalText n = (if n < 0 then [(45 : Byte)] else []) ++ fixedDigits 10 k n.natAbs) ∧
    Values [.int (-42)] = Values [.string (lit "-42")] ∧
    (∀ n : Int, -2 ^ 7 ≤ n → n < 2 ^ 7 →
      Values [.int8 n] = Values [.int16 n] ∧ Values [.int8 n] = Values [.int32 n] ∧
      Values [.int8 n] = Values [.int64 n] ∧ Values [.int8 n] = Values [.int n]) := by
  refine ⟨?_, ?_, ?_, ?_, ?_, decimalText_digits, ?_, ?_⟩
  · intro n h1 h2
    exact values_single_congr _ _ (by rw [encode_int_decimal n ⟨h1, h2⟩, encode_string])
  · intro n h1 h2
    exact values_single_congr _ _ (by rw [encode_int8_decimal n ⟨h1, h2⟩, encode_string])
  · intro n h1 h2
    exact values_single_congr _ _ (by rw [encode_int16_decimal n ⟨h1, h2⟩, encode_string])
  · intro n h1 h2
    exact values_single_congr _ _ (by rw [encode_int32_decimal n ⟨h1, h2⟩, encode_string])
  · intro n h1 h2
    exact values_single_congr _ _ (by rw [encode_int64_decimal n ⟨h1, h2⟩, encode_string])
  · exact values_single_congr _ _ (by decide)
  · intro n h1 h2
    have e8 := encode_int8_decimal n ⟨h1, h2⟩
    refine ⟨?_, ?_, ?_, ?_⟩
    · exact values_single_congr _ _ (by rw [e8, encode_int16_decimal n (by omega)])
    · exact values_single_congr _ _ (by rw [e8, encode_int32_decimal n (by omega)])
    · exact values_single_congr _ _ (by rw [e8, encode_int64_decimal n (by omega)])
    · exact values_single_congr _ _ (by rw [e8, encode_int_decimal n (by omega)])

/-- C11 at the `int8` -128, the `int64` 9223372036854775807 and the `int16` 0. -/
theorem values_integer_decimal_witness :
    (-(2 : Int) ^ 7 ≤ -128 ∧ (-128 : Int) < 2 ^ 7 ∧
      Values [.int8 (-128)] = Values [.string (decimalText (-128))] ∧
      decimalText (-128) = lit "-128") ∧
    (-(2 : Int) ^ 63 ≤ 9223372036854775807 ∧ (9223372036854775807 : Int) < 2 ^ 63 ∧
      Values [.int64 9223372036854775807] =
        Values [.string (decimalText 9223372036854775807)] ∧
      decimalText 9223372036854775807 = lit "9223372036854775807") ∧
    (-(2 : Int) ^ 15 ≤ 0 ∧ (0 : Int) < 2 ^ 15 ∧
      Values [.int16 0] = Values [.string (decimalText 0)] ∧ decimalText 0 = lit "0") :=
  ⟨⟨by decide, by decide, values_integer_decimal.2.1 (-128) (by decide) (by decide), by decide⟩,
   ⟨by decide, by decide,
    values_integer_decimal.2.2.2.2.1 9223372036854775807 (by decide) (by decide), by decide⟩,
   ⟨by decide, by decide, values_integer_decimal.2.2.1 0 (by decide) (by decide), by decide⟩⟩

/-! ## C12: a slice of strings is absorbed as the concatenation -/

theorem encode_strings (xs : List Bytes) : encode (.strings xs) = xs.flatten := by
  unfold encode
  simp only [absorb]
  rw [foldl_writeString_data]
  simp [New]

/-- C12: for every slice of strings `xs`, `Values(xs)` equals `Values` of the concatenation
of the elements of `xs` in order; the empty slice has the fingerprint of the empty string. -/
theorem values_string_slice :
    (∀ xs : List Bytes, Values [.strings xs] = Values [.string xs.flatten]) ∧
    Values [.strings []] = Values [.string (lit "")] := by
  have key : ∀ xs : List Bytes, Values [.strings xs] = Values [.string xs.flatten] := by
    intro xs
    exact values_single_congr _ _ (by rw [encode_strings, encode_string])
  exact ⟨key, key []⟩

/-! ## C19: a nil pointer of another type -/

/-- C19: a nil pointer whose type is none of the nine pointer cases reaches the default
branch, where the kind `Ptr` selects the JSON encoding (whatever that encoding is); for the
nil pointer it is the four bytes `null`, so its fingerprint is that of the string `"null"`,
and the bytes it absorbs, and its fingerprint, differ from those of the explicit nil. -/
theorem values_nil_other_pointer :
    (∀ json v : Bytes, encode (.other .Ptr json v) = json) ∧
    encode nilOtherPtr = lit "null" ∧
    Values [nilOtherPtr] = Values [.string (lit "null")] ∧
    encode Value.nil = [] ∧
    encode nilOtherPtr ≠ encode Value.nil ∧
    Values [nilOtherPtr] ≠ Values [Value.nil] := by
  refine ⟨?_, by decide, values_single_congr _ _ (by decide), rfl, by decide, by decide⟩
  intro json v
  simp [encode, absorb, absorbOther, write_data, New]

/-! ## C17: `Sum64` on hexadecimal text of any length and case -/

theorem parseLoop_overflow (p : Bytes) (n : Nat) (hn : n < 2 ^ 64) (hp : ∀ x ∈ p, isHex x)
    (hv : 2 ^ 64 ≤ p.foldl (fun n c => 16 * n + hexDigit c) n) :
    parseLoop 16 ((2 ^ 64 - 1) / 16 + 1) (2 ^ 64 - 1) p n =
      (2 ^ 64 - 1, some NumError.ErrRange) := by
  induction p generalizing n with
  | nil =>
    simp only [List.foldl_nil] at hv
    omega
  | cons c cs ih =>
    have hc := digitVal_of_isHex c (hp c (by simp))
    simp only [List.foldl_cons] at hv
    by_cases hcut : (2 ^ 64 - 1) / 16 + 1 ≤ n
    · rw [parseLoop_cons]
      simp only [hc.1]
      rw [if_neg (by omega), if_pos hcut]
    · have hlt : 16 * n + hexDigit c < 2 ^ 64 := by
        norm_num at hcut ⊢
        omega
      rw [parseLoop_step c cs n (hexDigit c) hc.1 hc.2 hlt]
      exact ih _ hlt (fun x hx => hp x (by simp [hx])) hv

/-- C17: `Sum64` accepts hexadecimal digits of either case and any length: a non-empty text
of such digits denoting a number below `2^64` gives that number, and a text of such digits
denoting `2^64` or more gives `2^64 - 1`. -/
theorem sum64_hex_any_length :
    (∀ s : Bytes, s ≠ [] → (∀ c ∈ s, isHex c) → hexValue s < 2 ^ 64 → Sum64 s = hexValue s) ∧
    (∀ s : Bytes, (∀ c ∈ s, isHex c) → 2 ^ 64 ≤ hexValue s → Sum64 s = 2 ^ 64 - 1) := by
  constructor
  · intro s hne hs hv
    have hp := parseLoop_hex s 0 hs hv
    have h3 : (parseLoop 16 ((2 ^ 64 - 1) / 16 + 1) (2 ^ 64 - 1) s 0).1 =
        List.foldl (fun n c => 16 * n + hexDigit c) 0 s := by
      rw [hp]
    exact (sum64_nonempty s hne).trans h3
  · intro s hs hv
    have hne : s ≠ [] := by
      intro h
      subst h
      simp [hexValue] at hv
    have hp := parseLoop_overflow s 0 (by norm_num) hs hv
    have h3 : (parseLoop 16 ((2 ^ 64 - 1) / 16 + 1) (2 ^ 64 - 1) s 0).1 = 2 ^ 64 - 1 := by
      rw [hp]
    exact (sum64_nonempty s hne).trans h3

set_option maxRecDepth 100000 in
/-- C17 at `Ff` (255), at `1f` behind nineteen zeros (31), and at `1` followed by sixteen
zeros (`2^64`, which gives `2^64 - 1`). -/
theorem sum64_hex_any_length_witness :
    (lit "Ff" ≠ [] ∧ (∀ c ∈ lit "Ff", isHex c) ∧ hexValue (lit "Ff") < 2 ^ 64 ∧
      Sum64 (lit "Ff") = hexValue (lit "Ff") ∧ hexValue (lit "Ff") = 255) ∧
    (lit "00000000000000000001f" ≠ [] ∧ (∀ c ∈ lit "00000000000000000001f", isHex c) ∧
      hexValue (lit "00000000000000000001f") < 2 ^ 64 ∧
      Sum64 (lit "00000000000000000001f") = hexValue (lit "00000000000000000001f") ∧
      hexValue (lit "00000000000000000001f") = 31) ∧
    ((∀ c ∈ lit "10000000000000000", isHex c) ∧ 2 ^ 64 ≤ hexValue (lit "10000000000000000") ∧
      Sum64 (lit "10000000000000000") = 2 ^ 64 - 1) :=
  ⟨⟨by decide, by decide, by decide,
    sum64_hex_any_length.1 (lit "Ff") (by decide) (by decide) (by decide), by decide⟩,
   ⟨by decide, by decide, by decide,
    sum64_hex_any_length.1 (lit "00000000000000000001f") (by decide) (by decide) (by decide),
    by decide⟩,
   ⟨by decide, by decide,
    sum64_hex_any_length.2 (lit "10000000000000000") (by decide) (by decide)⟩⟩

/-! ## C13: a float with a fraction is absorbed with verb `%f` -/

theorem toDigits_fixed (u : Nat) :
    ∃ k, 1 ≤ k ∧ (k = 1 ∨ 10 ^ (k - 1) ≤ u) ∧ u < 10 ^ k ∧
      (Nat.toDigits 10 u).map (fun c => (Fin.ofNat c.toNat : Byte)) = fixedDigits 10 k u := by
  obtain ⟨k, hk1, hk2, hk3, hk4⟩ := fmtDigits_eq 10 (by norm_num) u u [] (lt_ten_pow_succ _)
  refine ⟨k, hk1, hk2, hk3, ?_⟩
  rw [toDigits_eq_fmtDigits u u (lt_ten_pow_succ _), hk4, List.append_nil]

theorem decimal_one (i : Nat) : decimal 1 i = decimalText (i : Int) := by
  obtain ⟨k, hk1, _, _, hk4⟩ := toDigits_fixed i
  unfold decimal decimalText
  simp only [hk4, Int.natAbs_ofNat]
  rw [fixedDigits_length]
  have h0 : 1 - k = 0 := by omega
  have hneg : ¬ ((i : Int) < 0) := by omega
  rw [h0, if_neg hneg]
  rfl

theorem decimal_six (f : Nat) (h : f < 10 ^ 6) : decimal 6 f = fixedDigits 10 6 f := by
  obtain ⟨k, hk1, hk2, hk3, hk4⟩ := toDigits_fixed f
  have hk : k ≤ 6 := by
    rcases hk2 with hk2 | hk2
    · omega
    · by_contra hc
      have : (10 : Nat) ^ 6 ≤ 10 ^ (k - 1) := Nat.pow_le_pow_right (by norm_num) (by omega)
      omega
  unfold decimal
  simp only [hk4]
  rw [fixedDigits_length]
  have e : fixedDigits 10 6 f = fixedDigits 10 ((6 - k) + k) f := by
    congr 1
    omega
  rw [e, fixedDigits_pad 10 (by norm_num) (6 - k) k f hk3, digit_zero]

theorem round_half_even (num p : Nat) (hp : 0 < p) :
    ∃ n : Nat,
      n = (if p < 2 * (num % p) ∨ (2 * (num % p) = p ∧ num / p % 2 = 1) then num / p + 1
        else num / p) ∧
      2 * (n * p) ≤ 2 * num + p ∧ 2 * num ≤ 2 * (n * p) + p ∧
      ((2 * (n * p) = 2 * num + p ∨ 2 * num = 2 * (n * p) + p) → n % 2 = 0) := by
  have hdm := Nat.div_add_mod num p
  have hr := Nat.mod_lt num hp
  rw [Nat.mul_comm] at hdm
  refine ⟨_, rfl, ?_⟩
  split_ifs with hc
  · have e : (num / p + 1) * p = num / p * p + p := by ring
    rw [e]
    generalize num / p * p = x at *
    generalize num % p = r at *
    generalize num / p = q at *
    refine ⟨by omega, by omega, ?_⟩
    intro ht
    rcases hc with hc | hc
    · omega
    · omega
  · generalize hx : num / p * p = x at *
    generalize num % p = r at *
    generalize num / p = q at *
    refine ⟨by omega, by omega, ?_⟩
    intro ht
    have : ¬ (q % 2 = 1) := by
      intro h1
      exact hc (Or.inr ⟨by omega, h1⟩)
    omega

theorem fmtF_fin (s : Bool) (m : Nat) (e : Int) :
    ∃ n : Nat,
      (2 * (n * 2 ^ (scaled m e).2) ≤ 2 * ((scaled m e).1 * 10 ^ 6) + 2 ^ (scaled m e).2 ∧
        2 * ((scaled m e).1 * 10 ^ 6) ≤ 2 * (n * 2 ^ (scaled m e).2) + 2 ^ (scaled m e).2 ∧
        ((2 * (n * 2 ^ (scaled m e).2) = 2 * ((scaled m e).1 * 10 ^ 6) + 2 ^ (scaled m e).2 ∨
          2 * ((scaled m e).1 * 10 ^ 6) = 2 * (n * 2 ^ (scaled m e).2) + 2 ^ (scaled m e).2) →
          n % 2 = 0)) ∧
      fmtF (.fin s m e) =
        (if s then [(45 : Byte)] else []) ++ decimalText ((n / 10 ^ 6 : Nat) : Int) ++
          [(46 : Byte)] ++ fixedDigits 10 6 (n % 10 ^ 6) := by
  obtain ⟨n, hn, h1, h2, h3⟩ :=
    round_half_even ((scaled m e).1 * 10 ^ 6) (2 ^ (scaled m e).2) (Nat.pow_pos (by norm_num))
  refine ⟨n, ⟨h1, h2, h3⟩, ?_⟩
  have hf : fmtF (.fin s m e) =
      (if s then [(45 : Byte)] else []) ++ decimal 1 (n / 10 ^ 6) ++ [(46 : Byte)] ++
        decimal 6 (n % 10 ^ 6) := by
    rw [hn]
    rfl
  rw [hf, decimal_one, decimal_six _ (Nat.mod_lt _ (by norm_num))]

theorem encode_float64_frac (x : Flt) (h : x.eq (Flt.float64 x.toInt64) = false) :
    encode (.float64 x) = fmtF x := by
  simp [encode, absorb, h, write_data, New]

theorem encode_float32_frac (x : Flt) (h : x.eq (Flt.float32 x.toInt32) = false) :
    encode (.float32 x) = fmtF x := by
  simp [encode, absorb, h, write_data, New]

/-- C13 fails as stated: the `float64` NaN is not equal to its integer truncation, and it
is absorbed as the three bytes `NaN`, which hold no decimal point. -/
theorem values_fraction_float_counterexample :
    Flt.nan.isFloat64 ∧ Flt.nan.eq (Flt.float64 Flt.nan.toInt64) = false ∧
    encode (.float64 .nan) = lit "NaN" ∧ (46 : Byte) ∉ encode (.float64 .nan) := by
  decide

/-- C13, amended: a `float64` (or `float32`) `x` that is not equal to its same-width integer
truncation is absorbed as its `%f` text. For a finite `x = ± a / 2^k` that text is the sign
(when negative), the decimal text of the integer part, a point and exactly six digits, the
digits being those of the natural number `n` nearest to `|x| * 10^6` (ties to the even one);
for NaN and the infinities it is `NaN`, `+Inf`, `-Inf`. So `Values(123.5)` equals
`Values("123.500000")`, whose bytes differ from those of the integer 123. -/
theorem values_fraction_float :
    (∀ x : Flt, x.eq (Flt.float64 x.toInt64) = false →
      Values [.float64 x] = Values [.string (fmtF x)]) ∧
    (∀ x : Flt, x.eq (Flt.float32 x.toInt32) = false →
      Values [.float32 x] = Values [.string (fmtF x)]) ∧
    (∀ (s : Bool) (m : Nat) (e : Int), ∃ n : Nat,
      (2 * (n * 2 ^ (scaled m e).2) ≤ 2 * ((scaled m e).1 * 10 ^ 6) + 2 ^ (scaled m e).2 ∧
        2 * ((scaled m e).1 * 10 ^ 6) ≤ 2 * (n * 2 ^ (scaled m e).2) + 2 ^ (scaled m e).2 ∧
        ((2 * (n * 2 ^ (scaled m e).2) = 2 * ((scaled m e).1 * 10 ^ 6) + 2 ^ (scaled m e).2 ∨
          2 * ((scaled m e).1 * 10 ^ 6) = 2 * (n * 2 ^ (scaled m e).2) + 2 ^ (scaled m e).2) →
          n % 2 = 0)) ∧
      fmtF (.fin s m e) =
        (if s then [(45 : Byte)] else []) ++ decimalText ((n / 10 ^ 6 : Nat) : Int) ++
          [(46 : Byte)] ++ fixedDigits 10 6 (n % 10 ^ 6)) ∧
    (fmtF .nan = lit "NaN" ∧ fmtF (.inf false) = lit "+Inf" ∧ fmtF (.inf true) = lit "-Inf") ∧
    Values [.float64 (.fin false 247 (-1))] = Values [.string (lit "123.500000")] ∧
    encode (.float64 (.fin false 247 (-1))) ≠ encode (.int 123) := by
  refine ⟨?_, ?_, fmtF_fin, ⟨rfl, rfl, rfl⟩, values_single_congr _ _ (by decide), by decide⟩
  · intro x h
    exact values_single_congr _ _ (by rw [encode_float64_frac x h, encode_string])
  · intro x h
    exact values_single_congr _ _ (by rw [encode_float32_frac x h, encode_string])

/-- C13 (amended) at the `float64` 123.5 (`247 / 2`) and the `float32`
`-13194140 / 2^43` (about -0.0000015, absorbed as `-0.000002`). -/
theorem values_fraction_float_witness :
    ((Flt.fin false 247 (-1)).eq (Flt.float64 (Flt.fin false 247 (-1)).toInt64) = false ∧
      Values [.float64 (.fin false 247 (-1))] =
        Values [.string (fmtF (.fin false 247 (-1)))] ∧
      fmtF (.fin false 247 (-1)) = lit "123.500000") ∧
    ((Flt.fin true 13194140 (-43)).eq (Flt.float32 (Flt.fin true 13194140 (-43)).toInt32) = false ∧
      Values [.float32 (.fin true 13194140 (-43))] =
        Values [.string (fmtF (.fin true 13194140 (-43)))] ∧
      fmtF (.fin true 13194140 (-43)) = lit "-0.000002") :=
  ⟨⟨by decide, values_fraction_float.1 _ (by decide), by decide⟩,
   ⟨by decide, values_fraction_float.2.1 _ (by decide), by decide⟩⟩

end Hash

namespace Datetime

/-! ## Machine arithmetic -/

theorem wrap64_of_range (n : Int) (h : -2 ^ 63 ≤ n ∧ n < 2 ^ 63) : wrap64 n = n := by
  unfold wrap64
  norm_num at h ⊢
  omega



/-! ## `EpochMinuteApart` when the difference does not overflow -/

/-- The result of `EpochMinuteApart` does not depend on the order of its arguments. -/
theorem epochMinuteApart_symm (e1 e2 : Int) :
    EpochMinuteApart e1 e2 = EpochMinuteApart e2 e1 := by
  unfold EpochMinuteApart
  simp only
  rcases lt_trichotomy e1 e2 with h | h | h
  · rw [if_pos h, if_neg (by omega)]
  · subst h; rfl
  · rw [if_neg (by omega), if_pos h]

/-- When the two epochs are less than `2^63` apart, `EpochMinuteApart` is true exactly when
they are at most 60000 milliseconds apart. -/
theorem epochMinuteApart_exact (e1 e2 : Int) (h : |e1 - e2| < 2 ^ 63) :
    EpochMinuteApart e1 e2 = true ↔ |e1 - e2| ≤ 60000 := by
  unfold EpochMinuteApart
  simp only
  rcases le_or_lt e2 e1 with h1 | h1
  · rw [if_neg (by omega)]
    have habs : |e1 - e2| = e1 - e2 := abs_of_nonneg (by omega)
    rw [habs] at h ⊢
    simp only [decide_eq_true_eq]
    rw [wrap64_of_range _ ⟨by norm_num; omega, h⟩]
    norm_num
  · rw [if_pos h1]
    have habs : |e1 - e2| = e2 - e1 := by
      rw [abs_of_neg (by omega)]
      omega
    rw [habs] at h ⊢
    simp only [decide_eq_true_eq]
    rw [wrap64_of_range _ ⟨by norm_num; omega, h⟩]
    norm_num




/-! ## `DateFromEpoch` and `TimeToEpoch` -/

theorem wrap64_add_wrap (a b : Int) : wrap64 (wrap64 a + b) = wrap64 (a + b) := by
  unfold wrap64
  norm_num
  omega

theorem tdiv_of_nonneg (a b : Int) (ha : 0 ≤ a) (hb : 0 ≤ b) : Int.tdiv a b = a / b :=
  Int.tdiv_eq_ediv ha hb

theorem tdiv_of_neg (a b : Int) (ha : a ≤ 0) (hb : 0 ≤ b) : Int.tdiv a b = -((-a) / b) := by
  have h : Int.tdiv (-(-a)) b = -(Int.tdiv (-a) b) := Int.neg_tdiv (-a) b
  rw [neg_neg] at h
  rw [h, Int.tdiv_eq_ediv (by omega) hb]

/-- The instant of `DateFromEpoch(t)`: `t / 1000` seconds (rounded down) and the rest in
nanoseconds. -/
theorem dateFromEpoch_eq (t : Int) (h0 : -2 ^ 63 ≤ t * 1000000) (h1 : t * 1000000 < 2 ^ 63) :
    DateFromEpoch t = ⟨t / 1000, t % 1000 * 1000000⟩ := by
  unfold DateFromEpoch Unix unixTime
  rw [wrap64_of_range _ ⟨h0, h1⟩]
  norm_num at h0 h1
  by_cases hr : t * 1000000 < 0 ∨ 1000000000 ≤ t * 1000000
  · rw [if_pos hr]
    simp only
    rcases hr with hneg | hpos
    · rw [tdiv_of_neg _ _ (by omega) (by norm_num)]
      have e1 : wrap64 (-(-(t * 1000000) / 1000000000) * 1000000000) =
          -(-(t * 1000000) / 1000000000) * 1000000000 :=
        wrap64_of_range _ (by norm_num; omega)
      have e2 : wrap64 (t * 1000000 - -(-(t * 1000000) / 1000000000) * 1000000000) =
          t * 1000000 - -(-(t * 1000000) / 1000000000) * 1000000000 :=
        wrap64_of_range _ (by norm_num; omega)
      have e3 : wrap64 (0 + -(-(t * 1000000) / 1000000000)) = -(-(t * 1000000) / 1000000000) :=
        (wrap64_of_range _ (by norm_num; omega)).trans (zero_add _)
      rw [e1, e2, e3]
      split_ifs with h2
      · rw [wrap64_of_range _ (by norm_num; omega)]
        congr 1 <;> omega
      · congr 1 <;> omega
    · rw [tdiv_of_nonneg _ _ (by omega) (by norm_num)]
      have e1 : wrap64 (t * 1000000 / 1000000000 * 1000000000) =
          t * 1000000 / 1000000000 * 1000000000 :=
        wrap64_of_range _ (by norm_num; omega)
      have e2 : wrap64 (t * 1000000 - t * 1000000 / 1000000000 * 1000000000) =
          t * 1000000 - t * 1000000 / 1000000000 * 1000000000 :=
        wrap64_of_range _ (by norm_num; omega)
      have e3 : wrap64 (0 + t * 1000000 / 1000000000) = t * 1000000 / 1000000000 :=
        (wrap64_of_range _ (by norm_num; omega)).trans (zero_add _)
      rw [e1, e2, e3, if_neg (by omega)]
      congr 1 <;> omega
  · rw [if_neg hr]
    congr 1 <;> omega

theorem timeToEpoch_eq (s ns : Int) (hs : -9223372037 ≤ s ∧ s ≤ 9223372036)
    (_hns : 0 ≤ ns ∧ ns < 1000000000)
    (hr : -2 ^ 63 ≤ s * 1000000000 + ns ∧ s * 1000000000 + ns + 500000 < 2 ^ 63) :
    TimeToEpoch ⟨s, ns⟩ = Int.tdiv (s * 1000000000 + ns + 500000) 1000000 := by
  unfold TimeToEpoch Time.IsZero Time.UTC Time.UnixNano unixToInternal
  norm_num at hr
  have hz : ((s + (1969 * 365 + 1969 / 4 - 1969 / 100 + 1969 / 400) * 86400 == 0 && ns == 0) : Bool)
      = false := by
    simp only [Bool.and_eq_false_imp, beq_iff_eq]
    intro h
    norm_num at h
    omega
  simp only [hz, Bool.false_eq_true, ↓reduceIte]
  rw [wrap64_add_wrap, add_assoc, wrap64_add_wrap, ← add_assoc,
    wrap64_of_range (s * 1000000000 + ns + 500000) (by norm_num; omega)]

/-- From an epoch that is not negative to a time and back is the identity. -/
theorem timeToEpoch_dateFromEpoch_nonneg (t : Int) (h0 : 0 ≤ t) (h1 : t * 1000000 < 2 ^ 63) :
    TimeToEpoch (DateFromEpoch t) = t := by
  rw [dateFromEpoch_eq t (by norm_num; omega) h1]
  norm_num at h1
  rw [timeToEpoch_eq _ _ (by omega) (by omega) (by norm_num; omega),
    tdiv_of_nonneg _ _ (by omega) (by norm_num)]
  omega

/-- From a negative epoch `t` to a time and back gives `t + 1`. -/
theorem timeToEpoch_dateFromEpoch_neg (t : Int) (h0 : t < 0) (h1 : -2 ^ 63 ≤ t * 1000000) :
    TimeToEpoch (DateFromEpoch t) = t + 1 := by
  rw [dateFromEpoch_eq t h1 (by norm_num; omega)]
  norm_num at h1
  rw [timeToEpoch_eq _ _ (by omega) (by omega) (by norm_num; omega),
    tdiv_of_neg _ _ (by omega) (by norm_num)]
  omega



/-! ## The calendar of package `time` -/

/-- The cycles `absDate` cuts a day number into: 400-year, 100-year, 4-year cycles and
years, the last day of a cycle being kept in its last year. -/
theorem yearSplit (d0 n1 d1 q2 n2 d2 n3 d3 q4 n4 d4 : Nat)
    (h1 : n1 = d0 / 146097) (h2 : d1 = d0 - 146097 * n1)
    (h3 : q2 = d1 / 36524) (h4 : n2 = q2 - q2 >>> 2) (h5 : d2 = d1 - 36524 * n2)
    (h6 : n3 = d2 / 1461) (h7 : d3 = d2 - 1461 * n3)
    (h8 : q4 = d3 / 365) (h9 : n4 = q4 - q4 >>> 2) (h10 : d4 = d3 - 365 * n4) :
    n2 ≤ 3 ∧ n3 ≤ 24 ∧ n4 ≤ 3 ∧
      d0 = 146097 * n1 + 36524 * n2 + 1461 * n3 + 365 * n4 + d4 ∧
      d4 ≤ 365 ∧ (d4 = 365 → n4 = 3 ∧ (n3 = 24 → n2 = 3)) ∧
      400 * n1 + 100 * n2 + 4 * n3 + n4 ≤ d0 := by
  rw [Nat.shiftRight_eq_div_pow] at h4 h9
  norm_num at h4 h9
  have hd1 : d1 ≤ 146096 := by omega
  have hd0 : d0 = 146097 * n1 + d1 := by omega
  have hq2 : q2 ≤ 4 := by omega
  have hn2 : n2 ≤ 3 := by omega
  have hd2 : d2 ≤ 36524 ∧ d1 = 36524 * n2 + d2 ∧ (d2 = 36524 → n2 = 3) := by
    interval_cases q2 <;> omega
  have hn3 : n3 ≤ 24 := by omega
  have hd3 : d3 ≤ 1460 ∧ d2 = 1461 * n3 + d3 ∧ (n3 = 24 → d3 = 1460 → d2 = 36524) := by omega
  have hq4 : q4 ≤ 4 := by omega
  have hd4 : n4 ≤ 3 ∧ d4 ≤ 365 ∧ d3 = 365 * n4 + d4 ∧ (d4 = 365 → n4 = 3 ∧ d3 = 1460) := by
    interval_cases q4 <;> omega
  refine ⟨hn2, hn3, hd4.1, by omega, hd4.2.1, ?_, by omega⟩
  intro h
  have := hd4.2.2.2 h
  refine ⟨this.1, ?_⟩
  intro h24
  exact hd2.2.2 (hd3.2.2 h24 this.2)


theorem absYearDay_spec (abs : Nat) (h : abs < 2 ^ 64) :
    ∃ n1 n2 n3 n4 : Nat, n2 ≤ 3 ∧ n3 ≤ 24 ∧ n4 ≤ 3 ∧
      (absYearDay abs).1 = ((400 * n1 + 100 * n2 + 4 * n3 + n4 : Nat) : Int) + absoluteZeroYear ∧
      abs / 86400 = 146097 * n1 + 36524 * n2 + 1461 * n3 + 365 * n4 + (absYearDay abs).2 ∧
      (absYearDay abs).2 ≤ 365 ∧
      ((absYearDay abs).2 = 365 → n4 = 3 ∧ (n3 = 24 → n2 = 3)) := by
  have hy : ∀ y : Nat, y ≤ abs / 86400 →
      wrap64 ((y : Int) + absoluteZeroYear) = (y : Int) + absoluteZeroYear := by
    intro y hy
    apply wrap64_of_range
    unfold absoluteZeroYear
    norm_num at h ⊢
    omega
  obtain ⟨a1, a2, a3, a4, a5, a6, a7⟩ :=
    yearSplit (abs / 86400) _ _ _ _ _ _ _ _ _ _ rfl rfl rfl rfl rfl rfl rfl rfl rfl rfl
  refine ⟨_, _, _, _, a1, a2, a3, ?_, a4, a5, a6⟩
  refine Eq.trans ?_ (hy _ a7)
  rfl

theorem wrapU64_natCast (y : Nat) (h : y < 2 ^ 64) : wrapU64 (y : Int) = y := by
  unfold wrapU64
  norm_num at h ⊢
  omega

theorem daysSinceEpoch_spec (n1 n2 n3 n4 : Nat) (h2 : n2 ≤ 3) (h3 : n3 ≤ 24) (h4 : n4 ≤ 3)
    (h : 400 * n1 + 100 * n2 + 4 * n3 + n4 < 2 ^ 64) :
    daysSinceEpoch (((400 * n1 + 100 * n2 + 4 * n3 + n4 : Nat) : Int) + absoluteZeroYear) =
      146097 * n1 + 36524 * n2 + 1461 * n3 + 365 * n4 := by
  unfold daysSinceEpoch
  rw [add_sub_cancel_right, wrapU64_natCast _ h]
  simp only [daysPer400Years, daysPer100Years, daysPer4Years]
  norm_num
  generalize hy : 400 * n1 + 100 * n2 + 4 * n3 + n4 = y at *
  have e1 : y / 400 = n1 := by omega
  rw [e1]
  have e2 : (y - 400 * n1) / 100 = n2 := by omega
  rw [e2]
  have e3 : (y - 400 * n1 - 100 * n2) / 4 = n3 := by omega
  rw [e3]
  omega

theorem isLeap_spec (n1 n2 n3 n4 : Nat) (h2 : n2 ≤ 3) (h3 : n3 ≤ 24) (h4 : n4 ≤ 3) :
    isLeap (((400 * n1 + 100 * n2 + 4 * n3 + n4 : Nat) : Int) + absoluteZeroYear) = true ↔
      (n4 = 3 ∧ (n3 = 24 → n2 = 3)) := by
  unfold isLeap absoluteZeroYear
  simp only [Bool.and_eq_true, beq_iff_eq, Bool.or_eq_true, bne_iff_ne, ne_eq]
  push_cast
  constructor
  · rintro ⟨ha, hb⟩
    refine ⟨by omega, ?_⟩
    intro h24
    rcases hb with hb | hb
    · omega
    · omega
  · rintro ⟨ha, hb⟩
    refine ⟨by omega, ?_⟩
    by_cases h24 : n3 = 24
    · right
      have := hb h24
      omega
    · left
      omega



set_option maxRecDepth 1000000 in
/-- Month and day of `absDate` are right for every day of the year: the days before the
month, the leap day when it has passed, and the day of the month add up to the day of the
year. -/
theorem absMonthDay_table :
    ∀ leap : Bool, ∀ yday : Nat, yday < 366 → (yday ≤ 364 ∨ leap = true) →
      1 ≤ (absMonthDay leap yday).1 ∧ (absMonthDay leap yday).1 ≤ 12 ∧
      1 ≤ (absMonthDay leap yday).2 ∧
      daysBefore.getD ((absMonthDay leap yday).1 - 1) 0 +
        (if leap = true ∧ 3 ≤ (absMonthDay leap yday).1 then 1 else 0) +
        (absMonthDay leap yday).2 = yday + 1 := by
  decide



theorem norm_noop (hi lo base : Int) (h : 0 ≤ lo ∧ lo < base) : norm hi lo base = (hi, lo) := by
  unfold norm
  rw [if_neg (by omega)]
  simp only
  rw [if_neg (by omega)]

theorem date_eq (year : Int) (m d : Nat) (hh mm ss ns : Int) (hm : 1 ≤ m ∧ m ≤ 12)
    (hhh : 0 ≤ hh ∧ hh < 24) (hmm : 0 ≤ mm ∧ mm < 60) (hss : 0 ≤ ss ∧ ss < 60)
    (hns : 0 ≤ ns ∧ ns < 1000000000) :
    Date year (m : Int) (d : Int) hh mm ss ns =
      ⟨wrap64 (wrap64 (wrapU64 ((wrapU64 ((((daysSinceEpoch year : Nat) : Int) +
        ((daysBefore.getD (m - 1) 0 : Nat) : Int) +
        (if isLeap year = true ∧ 3 ≤ m then 1 else 0) + ((d : Int) - 1)) * 86400) : Nat) +
        (hh * 3600 + mm * 60 + ss))) + (absoluteToInternal + internalToUnix)), ns⟩ := by
  unfold Date
  simp only
  rw [norm_noop year ((m : Int) - 1) 12 (by omega), norm_noop ss ns 1000000000 hns]
  simp only
  rw [norm_noop mm ss 60 hss]
  simp only
  rw [norm_noop hh mm 60 hmm]
  simp only
  rw [norm_noop (d : Int) hh 24 hhh]
  simp only [unixTime, secondsPerDay, secondsPerHour, secondsPerMinute]
  have e1 : ((m : Int) - 1 + 1 - 1).toNat = m - 1 := by omega
  rw [e1]
  norm_num
  congr 5
  split_ifs <;> rfl




theorem absDate_fields (abs : Nat) :
    (absDate abs).1 = (absYearDay abs).1 ∧
    (absDate abs).2.1 = (absMonthDay (isLeap (absYearDay abs).1) (absYearDay abs).2).1 ∧
    (absDate abs).2.2.1 = (absMonthDay (isLeap (absYearDay abs).1) (absYearDay abs).2).2 :=
  ⟨rfl, rfl, rfl⟩

theorem wrapU64_of_range (n : Int) (h : 0 ≤ n ∧ n < 2 ^ 64) : ((wrapU64 n : Nat) : Int) = n := by
  unfold wrapU64
  norm_num at h ⊢
  omega

/-- Giving `time.Date` the year, month and day that `absDate` reads from `abs` returns the
midnight of the day of `abs` plus the time of day given. -/
theorem date_absDate (abs : Nat) (h : abs + 86400 ≤ 2 ^ 64) (hh mm ss ns : Int)
    (hhh : 0 ≤ hh ∧ hh < 24) (hmm : 0 ≤ mm ∧ mm < 60) (hss : 0 ≤ ss ∧ ss < 60)
    (hns : 0 ≤ ns ∧ ns < 1000000000) :
    Date (absDate abs).1 ((absDate abs).2.1 : Nat) ((absDate abs).2.2.1 : Nat) hh mm ss ns =
      ⟨wrap64 ((((abs / 86400 * 86400 : Nat) : Int) + (hh * 3600 + mm * 60 + ss)) +
        (absoluteToInternal + internalToUnix)), ns⟩ := by
  obtain ⟨n1, n2, n3, n4, h2, h3, h4, hyear, hD, hyd, hleap⟩ :=
    absYearDay_spec abs (by norm_num at h ⊢; omega)
  obtain ⟨f1, f2, f3⟩ := absDate_fields abs
  have hlt : 400 * n1 + 100 * n2 + 4 * n3 + n4 < 2 ^ 64 := by
    norm_num at h ⊢
    omega
  have hdse := daysSinceEpoch_spec n1 n2 n3 n4 h2 h3 h4 hlt
  have hl := isLeap_spec n1 n2 n3 n4 h2 h3 h4
  rw [← hyear] at hdse hl
  have htab := absMonthDay_table (isLeap (absYearDay abs).1) (absYearDay abs).2 (by omega)
    (by
      by_cases h365 : (absYearDay abs).2 = 365
      · right
        exact hl.2 (hleap h365)
      · left
        omega)
  rw [← f2, ← f3, ← f1] at htab
  rw [← f1] at hdse
  obtain ⟨t1, t2, t3, t4⟩ := htab
  rw [date_eq _ _ _ hh mm ss ns ⟨t1, t2⟩ hhh hmm hss hns]
  have hsum : ((daysSinceEpoch (absDate abs).1 : Nat) : Int) +
      ((daysBefore.getD ((absDate abs).2.1 - 1) 0 : Nat) : Int) +
      (if isLeap (absDate abs).1 = true ∧ 3 ≤ (absDate abs).2.1 then 1 else 0) +
      (((absDate abs).2.2.1 : Nat) - 1 : Int) = ((abs / 86400 : Nat) : Int) := by
    rw [hdse, hD]
    split_ifs at t4 ⊢ <;> push_cast <;> omega
  rw [hsum]
  have hA : ((abs / 86400 : Nat) : Int) * 86400 = ((abs / 86400 * 86400 : Nat) : Int) := by
    push_cast
    rfl
  have hle := Nat.div_mul_le_self abs 86400
  norm_num at h
  have e1 : ((wrapU64 ((abs / 86400 * 86400 : Nat) : Int) : Nat) : Int) =
      ((abs / 86400 * 86400 : Nat) : Int) :=
    wrapU64_of_range _ (by norm_num; omega)
  rw [hA, e1, wrapU64_of_range _ (by norm_num; omega), wrap64_add_wrap]

theorem unixToAbsolute_eq : unixToInternal + internalToAbsolute = 9223372028715321600 := by
  decide

theorem absoluteToUnix_eq : absoluteToInternal + internalToUnix = -9223372028715321600 := by
  decide

/-- The instant `time.Date(t.Year(), t.Month(), t.Day(), hh, mm, ss, ns, time.UTC)` for
`t = DateFromEpoch(tv).UTC()`: the midnight of the UTC day of `tv` plus `hh:mm:ss` and `ns`
nanoseconds. -/
theorem date_of_day (tv : Int) (h : -9223286400000 ≤ tv ∧ tv < 9223286400000)
    (hh mm ss ns : Int)
    (hhh : 0 ≤ hh ∧ hh < 24) (hmm : 0 ≤ mm ∧ mm < 60) (hss : 0 ≤ ss ∧ ss < 60)
    (hns : 0 ≤ ns ∧ ns < 1000000000) :
    Date (DateFromEpoch tv).UTC.Year (DateFromEpoch tv).UTC.Month (DateFromEpoch tv).UTC.Day
        hh mm ss ns =
      ⟨tv / 86400000 * 86400 + (hh * 3600 + mm * 60 + ss), ns⟩ := by
  rw [dateFromEpoch_eq tv (by norm_num; omega) (by norm_num; omega)]
  unfold Time.UTC Time.Year Time.Month Time.Day Time.abs
  simp only [unixToAbsolute_eq]
  obtain ⟨a, ha⟩ : ∃ a : Nat, (a : Int) = tv / 1000 + 9223372028715321600 :=
    ⟨(tv / 1000 + 9223372028715321600).toNat, by omega⟩
  have hw : wrapU64 (tv / 1000 + 9223372028715321600) = a := by
    have := wrapU64_of_range (tv / 1000 + 9223372028715321600) (by norm_num; omega)
    omega
  rw [hw, date_absDate a (by norm_num; omega) hh mm ss ns hhh hmm hss hns, absoluteToUnix_eq]
  have hcast : ((a / 86400 * 86400 : Nat) : Int) = (a : Int) / 86400 * 86400 := by
    push_cast
    rfl
  rw [hcast, ha, wrap64_of_range _ (by norm_num; omega)]
  congr 1
  omega


/-! ## `StartofDay`, `EndofDay` and `DateRange` away from the failing inputs -/

/-- The value of `StartofDay`: the midnight at or before `tv`, plus one millisecond when `tv` is
negative. -/
theorem startofDay_eq (tv : Int) (h : -9223286400000 ≤ tv ∧ tv < 9223286400000) :
    StartofDay tv = if 0 ≤ tv then tv - tv % 86400000 else tv - tv % 86400000 + 1 := by
  unfold StartofDay
  simp only
  rw [date_of_day tv h 0 0 0 0 (by omega) (by omega) (by omega) (by omega),
    timeToEpoch_eq _ _ (by omega) (by omega) (by norm_num; omega)]
  split_ifs with h0
  · rw [tdiv_of_nonneg _ _ (by omega) (by norm_num)]
    omega
  · rw [tdiv_of_neg _ _ (by omega) (by norm_num)]
    omega

/-- The value of `EndofDay`: 86399000 milliseconds after the midnight at or before `tv`, plus
one millisecond when `tv` is negative. -/
theorem endofDay_eq (tv : Int) (h : -9223286400000 ≤ tv ∧ tv < 9223286400000) :
    EndofDay tv =
      if 0 ≤ tv then tv - tv % 86400000 + 86399000 else tv - tv % 86400000 + 86399001 := by
  unfold EndofDay
  simp only
  rw [date_of_day tv h 23 59 59 9999 (by omega) (by omega) (by omega) (by omega),
    timeToEpoch_eq _ _ (by omega) (by omega) (by norm_num; omega)]
  split_ifs with h0
  · rw [tdiv_of_nonneg _ _ (by omega) (by norm_num)]
    omega
  · rw [tdiv_of_neg _ _ (by omega) (by norm_num)]
    omega

/-- For `0 ≤ tv` up to the last whole day an `int64` of nanoseconds reaches, `StartofDay(tv)`
is the multiple of 86400000 at or below `tv`, `EndofDay(tv)` is 86399000 above it, and
`tv ≤ EndofDay(tv)` holds exactly when `tv` is not in the last 999 milliseconds of its day. -/
theorem startofDay_endofDay_bracket (tv : Int) (h0 : 0 ≤ tv) (h1 : tv < 9223286400000) :
    StartofDay tv % DaysInMilliseconds = 0 ∧ StartofDay tv ≤ tv ∧
    tv < StartofDay tv + DaysInMilliseconds ∧
    EndofDay tv = StartofDay tv + 86399000 ∧
    EndofDay tv < StartofDay tv + DaysInMilliseconds ∧
    (tv ≤ EndofDay tv ↔ tv % DaysInMilliseconds ≤ 86399000) := by
  rw [startofDay_eq tv ⟨by omega, h1⟩, endofDay_eq tv ⟨by omega, h1⟩, if_pos h0, if_pos h0]
  unfold DaysInMilliseconds
  omega

/-- For a reference time with epoch `e` in `[0, 9223286400000)` and a `timeunit` from 1 to
106751, `DateRange` returns `end = EndofDay(e)` and, with
`b = StartofDay(e) - (timeunit - 1) * 86400000`, `begin = b` when `b` is not negative and
`begin = b + 1` when it is. -/
theorem dateRange_eq (ref : Time) (timeunit : Int)
    (h0 : 0 ≤ TimeToEpoch ref) (h1 : TimeToEpoch ref < 9223286400000)
    (hu : 1 ≤ timeunit ∧ timeunit ≤ 106751) :
    (DateRange ref timeunit).2 = EndofDay (TimeToEpoch ref) ∧
    (DateRange ref timeunit).1 =
      (if 0 ≤ StartofDay (TimeToEpoch ref) - (timeunit - 1) * DaysInMilliseconds
        then StartofDay (TimeToEpoch ref) - (timeunit - 1) * DaysInMilliseconds
        else StartofDay (TimeToEpoch ref) - (timeunit - 1) * DaysInMilliseconds + 1) := by
  unfold DateRange
  simp only
  refine ⟨trivial, ?_⟩
  generalize TimeToEpoch ref = e at *
  rw [if_neg (by omega), endofDay_eq e ⟨by omega, h1⟩, startofDay_eq e ⟨by omega, h1⟩,
    if_pos h0, if_pos h0]
  unfold DaysInMilliseconds
  rw [wrap64_of_range (86400000 * timeunit) (by norm_num; omega),
    wrap64_of_range (e - e % 86400000 + 86399000 - 86400000 * timeunit) (by norm_num; omega),
    wrap64_of_range (1000 + (e - e % 86400000 + 86399000 - 86400000 * timeunit))
      (by norm_num; omega),
    startofDay_eq _ ⟨by omega, by omega⟩]
  split_ifs <;> omega

/-- With `timeunit = -1`, `DateRange` begins at epoch 0. -/
theorem dateRange_alltime (ref : Time) :
    DateRange ref (-1) = (0, EndofDay (TimeToEpoch ref)) := by
  unfold DateRange
  simp only [↓reduceIte]
  rw [startofDay_eq 0 (by omega)]
  rfl

/-! ## C14: `EpochMinuteApart` -/

set_option maxRecDepth 100000 in
/-- C14 at `epoch1 = 9223372036854775807`, `epoch2 = -1`: the two epochs are `2^63`
milliseconds apart, the subtraction `big - small` wraps to `-2^63`, and the function
returns true, in either order of the arguments. -/
theorem epochMinuteApart_overflow :
    wrap64 (9223372036854775807 - (-1)) = -9223372036854775808 ∧
    EpochMinuteApart 9223372036854775807 (-1) = true ∧
    EpochMinuteApart (-1) 9223372036854775807 = true ∧
    ¬ (|(9223372036854775807 : Int) - (-1)| ≤ 60000) := by
  decide

/-! ## C16: from an epoch to a time and back -/

set_option maxRecDepth 100000 in
/-- C16 at `t = -1`: `DateFromEpoch(-1)` is the instant one millisecond before 1970, and
`TimeToEpoch` of it is 0, because `(-1000000 + 500000) / 1000000` is truncated towards
zero. The same happens one day before 1970. -/
theorem timeToEpoch_dateFromEpoch_negative :
    DateFromEpoch (-1) = ⟨-1, 999000000⟩ ∧
    (DateFromEpoch (-1)).UnixNano = -1000000 ∧
    TimeToEpoch (DateFromEpoch (-1)) = 0 ∧
    TimeToEpoch (DateFromEpoch (-86400000)) = -86399999 := by
  decide

/-! ## C15: `StartofDay` and `EndofDay` -/

set_option maxRecDepth 100000 in
/-- C15 at `tv = 86399500` (1970-01-01 23:59:59.500 UTC): `StartofDay(tv)` is 0 and
`EndofDay(tv)` is 86399000, the epoch of 23:59:59 and 9999 nanoseconds, which is below
`tv`. -/
theorem endofDay_before_last_second :
    StartofDay 86399500 = 0 ∧
    Date 1970 1 1 23 59 59 9999 = ⟨86399, 9999⟩ ∧
    EndofDay 86399500 = 86399000 ∧
    ¬ ((86399500 : Int) ≤ EndofDay 86399500) := by
  decide

/-! ## C18: `DateRange` -/

set_option maxRecDepth 100000 in
/-- C18 at the reference time 1970-01-01 00:00:00 UTC (epoch 0) with `timeunit = 2` and
with `timeunit = 30`: the range begins before 1970 and `DateRange` returns
`begin = -86399999` and `begin = -2505599999`, one millisecond after the midnights
`-86400000` and `-2505600000`. -/
theorem dateRange_before_1970 :
    TimeToEpoch (DateFromEpoch 0) = 0 ∧
    DateRange (DateFromEpoch 0) 2 = (-86399999, 86399000) ∧
    StartofDay (TimeToEpoch (DateFromEpoch 0)) - (2 - 1) * 86400000 = -86400000 ∧
    DateRange (DateFromEpoch 0) 30 = (-2505599999, 86399000) ∧
    StartofDay (TimeToEpoch (DateFromEpoch 0)) - (30 - 1) * 86400000 = -2505600000 := by
  decide

end Datetime
